import Mathlib

/-!
Verification of the cmake_format argument-parsing grammars for the
`add_executable` and `install` commands.

The two grammar modules (`cmake_format/parse_funs/add_executable.py` and
`cmake_format/parse_funs/install.py`) are embedded directly; the generic
parsing framework they import (`cmake_format/parser.py`) and the lexer's
token model are not part of the given sources and are modelled from the
design specification (tokens, breakers/breakstacks, the generic
`parse_standard` engine, positional/keyword primitives).

Python's mutable front-popped token list is modelled by explicit state
passing: every grammar function takes the token list and returns the
parsed subtree together with the unconsumed remainder.  Raised exceptions
(IndexError from `tokens[0]` on an empty list, TypeError from calling the
non-callable `location` attribute, failed `assert` statements) are
modelled by an `Except` error result.  Unbounded `while` loops take a
fuel parameter; exhausted fuel is a distinguished error value that is
never conflated with the exceptions above.
-/

namespace CmakeFormat

/-- Modelled from the spec: the lexical classification tag of a token
(word-like semantic tokens, comments, whitespace and structural
parentheses).  `DEREF` is a token that is a variable dereference. -/
inductive TokenType where
  | WORD
  | QUOTED_LITERAL
  | UNQUOTED_LITERAL
  | DEREF
  | COMMENT
  | BRACKET_COMMENT
  | WHITESPACE
  | NEWLINE
  | LEFT_PAREN
  | RIGHT_PAREN
  deriving DecidableEq, Repr

/-- Modelled from the spec: an immutable lexical unit with a
classification tag, its literal spelling, and a source position (the
source row, which is all the grammar code inspects: trailing comments are
recognised by being on the same row as the argument they follow). -/
structure Token where
  type : TokenType
  spelling : String
  row : Nat
  deriving DecidableEq, Repr

/-- WHITESPACE_TOKENS from the lexer interface: whitespace and newline. -/
def WHITESPACE_TOKENS : List TokenType := [.WHITESPACE, .NEWLINE]

def isWhitespaceTok (tok : Token) : Bool :=
  tok.type == .WHITESPACE || tok.type == .NEWLINE

def isCommentTok (tok : Token) : Bool :=
  tok.type == .COMMENT || tok.type == .BRACKET_COMMENT

/-- A token is semantic if it is neither whitespace nor a comment. -/
def isSemanticTok (tok : Token) : Bool :=
  !(isWhitespaceTok tok || isCommentTok tok)

/-- Character-level uppercase of a spelling (Lean's `String.toUpper`
does not reduce in the kernel, so the same map is written over the
character list). -/
def toUpperStr (s : String) : String :=
  String.mk (s.data.map Char.toUpper)

def hasDerefAux : List Char → Bool
  | [] => false
  | [_] => false
  | a :: b :: rest => (a == '$' && b == '\x7b') || hasDerefAux (b :: rest)

/-- Whether a spelling contains the variable-dereference marker
(a dollar sign immediately followed by an opening brace). -/
def containsDeref (s : String) : Bool :=
  hasDerefAux s.data

/-- Modelled from the spec: `get_normalized_kwarg` returns the
uppercase-normalized spelling used for keyword matching, or nothing for
a token that contains a variable-dereference marker, which must never be
treated as a confident keyword match anywhere in the framework. -/
def get_normalized_kwarg (tok : Token) : Option String :=
  if tok.type == .DEREF || containsDeref tok.spelling then none
  else some (toUpperStr tok.spelling)

def optContains (o : Option String) (l : List String) : Bool :=
  match o with
  | some w => l.contains w
  | none => false

/-- Modelled from the spec: `get_tag` extracts the inline tag word of a
comment token (the first word after the leading comment characters),
lowercased; nothing when the comment carries no word. -/
def get_tag (tok : Token) : Option String :=
  let w := (tok.spelling.data.dropWhile (fun c => c == '#' || c == ' ')).takeWhile
    (fun c => c != ' ')
  if w.isEmpty then none else some (String.mk (w.map Char.toLower))

/-- Modelled from the spec: a breaker is a predicate answering "does
this token belong to an enclosing grammar scope?".  Two concrete forms:
a keyword breaker over a fixed set of case-insensitive keyword
spellings (`KwargBreaker`), and the structural breaker for the closing
parenthesis, which always breaks. -/
inductive Breaker where
  | kwarg (names : List String)
  | paren
  deriving DecidableEq, Repr

/-- KwargBreaker matching is case-insensitive on the normalized keyword
spelling; a token containing a variable-dereference marker never
matches (its normalized form is nothing). -/
def breakerMatches (b : Breaker) (tok : Token) : Bool :=
  match b with
  | .kwarg names => optContains (get_normalized_kwarg tok) names
  | .paren => tok.type == .RIGHT_PAREN

/-- Modelled from the spec: `should_break` returns true iff any breaker
in the active breakstack matches the token. -/
def should_break (tok : Token) (breakstack : List Breaker) : Bool :=
  breakstack.any (fun b => breakerMatches b tok)

/-- Modelled from the spec: the node kinds of the argument tree. -/
inductive NodeType where
  | BODY
  | COMMENT
  | ARGGROUP
  | PARGGROUP
  | KWARGGROUP
  | KEYWORD
  | ARGUMENT
  | FLAG
  deriving DecidableEq, Repr

/-- Modelled from the spec: a node of the argument tree.  Children are
an ordered sequence, each either a nested tree node or a bare token
(`leaf`); `sortable` is the metadata flag read by the layout engine. -/
inductive TreeNode where
  | leaf (tok : Token)
  | node (type : NodeType) (sortable : Bool) (children : List TreeNode)
  deriving Repr

mutual

/-- All tokens reachable from a tree node, in order. -/
def treeTokens : TreeNode → List Token
  | .leaf tok => [tok]
  | .node _ _ kids => flatTokens kids

/-- All tokens reachable from a list of tree nodes, in order. -/
def flatTokens : List TreeNode → List Token
  | [] => []
  | k :: ks => treeTokens k ++ flatTokens ks

end

/-- In-order concatenation of the spellings of a token list. -/
def concatSpellings (l : List Token) : String :=
  String.mk (l.flatMap (fun tok => tok.spelling.data))

/-- Errors of the model: exhausted fuel, and the Python exceptions that
the embedded code can raise (IndexError from subscripting an empty
list, TypeError from calling a non-callable attribute, AssertionError
from a failed internal assertion). -/
inductive PErr where
  | fuel
  | indexError
  | typeError
  | assertError
  deriving DecidableEq, Repr

/-- Modelled from the spec: arity specification of a positional parser:
an exact count, one-or-more, or zero-or-more. -/
inductive Npargs where
  | exact (n : Nat)
  | oneOrMore
  | zeroOrMore
  deriving DecidableEq, Repr

def npargsReached (npargs : Npargs) (nconsumed : Nat) : Bool :=
  match npargs with
  | .exact n => nconsumed ≥ n
  | .oneOrMore => false
  | .zeroOrMore => false

/-- Modelled from the spec: a declarative positional parser for a
keyword's payload: an arity bound, optionally enumerating the flags
recognized inside its own payload. -/
structure PositionalParser where
  npargs : Npargs
  flags : List String
  deriving DecidableEq, Repr

/-- A keyword's declared sub-parser: either a declarative
`PositionalParser`, or the custom pattern parser used by
`install(DIRECTORY ... PATTERN/REGEX ...)`. -/
inductive KwargSpec where
  | positional (pp : PositionalParser)
  | pattern
  deriving DecidableEq, Repr

/-- Modelled from the spec: `consume_trailing_comment` attaches a
comment that trails an argument on the same source row as a trailing
annotation of that argument, immediately after the argument node is
built.  Returns the extra children for the argument node and the
remaining tokens. -/
def consume_trailing_comment (row : Nat) (tokens : List Token) :
    List TreeNode × List Token :=
  match tokens with
  | [] => ([], [])
  | c :: rest =>
    if isCommentTok c && c.row == row then
      ([.node .COMMENT false [.leaf c]], rest)
    else ([], c :: rest)

/-- Prepend a parsed child to the result of parsing the rest of a
group. -/
def consKid (x : TreeNode) (r : Except PErr (List TreeNode × List Token)) :
    Except PErr (List TreeNode × List Token) :=
  match r with
  | .ok (kids, rem) => .ok (x :: kids, rem)
  | .error e => .error e

/-- Modelled from the spec: the loop of `parse_positionals`.  Consumes
whitespace and comments verbatim, stops when the arity is satisfied,
when the breakstack matches, or at a closing parenthesis, and otherwise
consumes one token as an `ARGUMENT` (or `FLAG`, when its normalized
spelling is one of the declared flags) node, together with its trailing
comment.  Returns the children of the positional group and the
remaining tokens. -/
def parse_positionals_run (fuel : Nat) (npargs : Npargs) (flags : List String)
    (breakstack : List Breaker) (nconsumed : Nat) (tokens : List Token) :
    Except PErr (List TreeNode × List Token) :=
  match fuel with
  | 0 => .error .fuel
  | f + 1 =>
    match tokens with
    | [] => .ok ([], [])
    | tok :: rest =>
      if npargsReached npargs nconsumed then .ok ([], tok :: rest)
      else if should_break tok breakstack then .ok ([], tok :: rest)
      else if tok.type == .RIGHT_PAREN then .ok ([], tok :: rest)
      else if isWhitespaceTok tok then
        consKid (.leaf tok) (parse_positionals_run f npargs flags breakstack nconsumed rest)
      else if isCommentTok tok then
        consKid (.node .COMMENT false [.leaf tok])
          (parse_positionals_run f npargs flags breakstack nconsumed rest)
      else
        let nt : NodeType :=
          if optContains (get_normalized_kwarg tok) flags then .FLAG else .ARGUMENT
        let p := consume_trailing_comment tok.row rest
        consKid (.node nt false (.leaf tok :: p.1))
          (parse_positionals_run f npargs flags breakstack (nconsumed + 1) p.2)

/-- Modelled from the spec: `parse_positionals` builds a positional
group (`PARGGROUP`) with the given sortable metadata. -/
def parse_positionals (fuel : Nat) (tokens : List Token) (npargs : Npargs)
    (flags : List String) (breakstack : List Breaker) (sortable : Bool) :
    Except PErr (TreeNode × List Token) :=
  match parse_positionals_run fuel npargs flags breakstack 0 tokens with
  | .ok (kids, rem) => .ok (.node .PARGGROUP sortable kids, rem)
  | .error e => .error e

/-- The recursion of the generic engine: either the main loop of
`parse_standard` (with its declarative configuration), or the custom
`parse_pattern` sub-parser reachable from `install(DIRECTORY)`'s
PATTERN/REGEX keywords. -/
inductive StdCall where
  | loop (npargs : Npargs) (kwargs : List (String × KwargSpec)) (flags : List String)
      (bs : List Breaker)
  | pattern (bs : List Breaker)

/-- Modelled from the spec: the shared recursive-descent loop of the
generic engine (`parse_standard`), together with `parse_pattern`.  Each
iteration first consults the breakstack, consumes whitespace and
comments verbatim, and otherwise classifies the next semantic token:
a declared keyword opens a keyword group (`parse_kwarg`: the keyword
token, its trailing comment, then the keyword's payload parsed with the
breakstack extended by any other declared keyword or flag), and
anything else falls through to the positional rule (with the breakstack
extended by the declared keywords only, so declared flags do not break
positionals).  Each iteration that dispatched a sub-parser asserts that
the remaining token count strictly decreased.  `pattern` parses the
payload of a PATTERN/REGEX keyword (`[EXCLUDE] [PERMISSIONS ...]`). -/
def std_run (fuel : Nat) (call : StdCall) (tokens : List Token) :
    Except PErr (List TreeNode × List Token) :=
  match fuel with
  | 0 => .error .fuel
  | f + 1 =>
    match call with
    | .pattern bs =>
      match std_run f
          (.loop .zeroOrMore [("PERMISSIONS", .positional ⟨.oneOrMore, []⟩)] ["EXCLUDE"] bs)
          tokens with
      | .ok (kids, rem) => .ok ([.node .ARGGROUP false kids], rem)
      | .error e => .error e
    | .loop npargs kwargs flags bs =>
      match tokens with
      | [] => .ok ([], [])
      | tok :: rest =>
        if should_break tok bs then .ok ([], tok :: rest)
        else if isWhitespaceTok tok then
          consKid (.leaf tok) (std_run f (.loop npargs kwargs flags bs) rest)
        else if isCommentTok tok then
          consKid (.node .COMMENT false [.leaf tok])
            (std_run f (.loop npargs kwargs flags bs) rest)
        else
          let kwbs := bs ++ [Breaker.kwarg (kwargs.map Prod.fst ++ flags)]
          let posbs := bs ++ [Breaker.kwarg (kwargs.map Prod.fst)]
          let subr : Except PErr (TreeNode × List Token) :=
            match (get_normalized_kwarg tok).bind (fun w => kwargs.lookup w) with
            | some spec =>
              let p := consume_trailing_comment tok.row rest
              let kwnode : TreeNode := .node .KEYWORD false (.leaf tok :: p.1)
              let payload : Except PErr (List TreeNode × List Token) :=
                match spec with
                | .positional pp =>
                  match parse_positionals f p.2 pp.npargs pp.flags kwbs false with
                  | .ok (t, rem) => .ok ([t], rem)
                  | .error e => .error e
                | .pattern => std_run f (.pattern kwbs) p.2
              match payload with
              | .ok (subKids, rem) => .ok (.node .KWARGGROUP false (kwnode :: subKids), rem)
              | .error e => .error e
            | none => parse_positionals f (tok :: rest) npargs flags posbs false
          match subr with
          | .error e => .error e
          | .ok (subtree, rem) =>
            if rem.length < (tok :: rest).length then
              consKid subtree (std_run f (.loop npargs kwargs flags bs) rem)
            else .error .assertError

/-- Modelled from the spec: `parse_standard`, the declarative entry of
the generic engine: runs the loop and wraps the children into an
argument group. -/
def parse_standard (fuel : Nat) (tokens : List Token) (npargs : Npargs)
    (kwargs : List (String × KwargSpec)) (flags : List String)
    (breakstack : List Breaker) : Except PErr (TreeNode × List Token) :=
  match std_run fuel (.loop npargs kwargs flags breakstack) tokens with
  | .ok (kids, rem) => .ok (.node .ARGGROUP false kids, rem)
  | .error e => .error e

/-- Modelled from the spec: the first semantic token of the stream
(used for discriminator lookahead). -/
def get_first_semantic_token (tokens : List Token) : Option Token :=
  (tokens.filter isSemanticTok).head?

/-- Modelled from the spec: the stream's semantic tokens in order
(`iter_semantic_tokens`). -/
def iter_semantic_tokens (tokens : List Token) : List Token :=
  tokens.filter isSemanticTok

/-! ## install.py -/

/-- install.py lines 28-44: the declarative grammar of
`parse_install_targets_sub` (unused by `parse_install_targets`, which
recurses into itself instead). -/
def parse_install_targets_sub (fuel : Nat) (tokens : List Token)
    (breakstack : List Breaker) : Except PErr (TreeNode × List Token) :=
  parse_standard fuel tokens .zeroOrMore
    [("DESTINATION", .positional ⟨.exact 1, []⟩),
     ("PERMISSIONS", .positional ⟨.oneOrMore, []⟩),
     ("CONFIGURATIONS", .positional ⟨.oneOrMore, []⟩),
     ("COMPONENT", .positional ⟨.exact 1, []⟩),
     ("NAMELINK_COMPONENT", .positional ⟨.exact 1, []⟩)]
    ["OPTIONAL", "EXCLUDE_FROM_ALL", "NAMELINK_ONLY", "NAMELINK_SKIP"]
    breakstack

/-- install.py lines 67-77: the outer keyword table of
`parse_install_targets` (dict order preserved). -/
def installKwargs : List (String × PositionalParser) :=
  [("TARGETS", ⟨.oneOrMore, []⟩),
   ("EXPORT", ⟨.exact 1, []⟩),
   ("INCLUDES", ⟨.oneOrMore, ["DESTINATION"]⟩),
   ("DESTINATION", ⟨.exact 1, []⟩),
   ("PERMISSIONS", ⟨.oneOrMore, []⟩),
   ("CONFIGURATIONS", ⟨.oneOrMore, []⟩),
   ("COMPONENT", ⟨.exact 1, []⟩),
   ("NAMELINK_COMPONENT", ⟨.exact 1, []⟩)]

/-- install.py lines 78-83: the flags of `parse_install_targets`. -/
def installFlags : List String :=
  ["OPTIONAL", "EXCLUDE_FROM_ALL", "NAMELINK_ONLY", "NAMELINK_SKIP"]

/-- install.py lines 84-87: the designated sub-group names of
`parse_install_targets`. -/
def designatedKwargs : List String :=
  ["ARCHIVE", "LIBRARY", "RUNTIME", "OBJECTS", "FRAMEWORK",
   "BUNDLE", "PRIVATE_HEADER", "PUBLIC_HEADER", "RESOURCE"]

/-- install.py lines 101-105: the subtree breakstack.  ARCHIVE,
LIBRARY, ... subtrees break only on the start of another subtree or on
INCLUDES. -/
def installSubtreeBS (breakstack : List Breaker) : List Breaker :=
  breakstack ++ [Breaker.kwarg (designatedKwargs ++ ["INCLUDES"])]

/-- install.py lines 107-110: the kwarg breakstack.  Kwargs at this
tree depth break on other kwargs, sub-group names, or flags. -/
def installKwargBS (breakstack : List Breaker) : List Breaker :=
  breakstack ++
    [Breaker.kwarg (installKwargs.map Prod.fst ++ designatedKwargs ++ installFlags)]

/-- install.py lines 112-115: the positional breakstack.  Positionals
at this depth break on kwargs and sub-group names but not flags. -/
def installPositionalBS (breakstack : List Breaker) : List Breaker :=
  breakstack ++ [Breaker.kwarg (installKwargs.map Prod.fst ++ designatedKwargs)]

/-- The recursion of `parse_install_targets` (install.py lines
47-153): the function itself (`targets`), its main loop (`loop`,
lines 117-152), and the classification of one semantic token at the
top of the loop (`step`, lines 142-149).  All three carry the incoming
breakstack, from which the three derived breakstacks are computed. -/
inductive InstCall where
  | targets (bs : List Breaker)
  | loop (bs : List Breaker)
  | step (bs : List Breaker)

/-- install.py lines 47-153: `parse_install_targets` and its loop.

`targets`: consume leading whitespace into the tree (lines 95-99),
then run the loop and wrap its children into an `ARGGROUP` (returned
as a singleton child list).

`loop`: break if the next token matches the incoming breakstack
(lines 121-122); append whitespace (126-128) and comments (131-136)
at the current depth; otherwise classify via `step` and assert that
the remaining token count strictly decreased (lines 138-152).

`step` (lines 142-149): designated sub-group names recurse into
`parse_install_targets` itself with the subtree breakstack, via
`parse_kwarg` (pop the keyword token, attach its trailing comment,
parse the payload); outer keywords parse their payload with the kwarg
breakstack; anything else is parsed as one-or-more positionals with
the positional breakstack. -/
def inst_run (fuel : Nat) (call : InstCall) (tokens : List Token) :
    Except PErr (List TreeNode × List Token) :=
  match fuel with
  | 0 => .error .fuel
  | f + 1 =>
    match call with
    | .targets bs =>
      let lead := tokens.takeWhile isWhitespaceTok
      match inst_run f (.loop bs) (tokens.dropWhile isWhitespaceTok) with
      | .ok (kids, rem) => .ok ([.node .ARGGROUP false (lead.map .leaf ++ kids)], rem)
      | .error e => .error e
    | .loop bs =>
      match tokens with
      | [] => .ok ([], [])
      | tok :: rest =>
        if should_break tok bs then .ok ([], tok :: rest)
        else if isWhitespaceTok tok then
          consKid (.leaf tok) (inst_run f (.loop bs) rest)
        else if isCommentTok tok then
          consKid (.node .COMMENT false [.leaf tok]) (inst_run f (.loop bs) rest)
        else
          match inst_run f (.step bs) (tok :: rest) with
          | .error e => .error e
          | .ok (subKids, rem) =>
            if rem.length < (tok :: rest).length then
              match inst_run f (.loop bs) rem with
              | .ok (kids, rem2) => .ok (subKids ++ kids, rem2)
              | .error e => .error e
            else .error .assertError
    | .step bs =>
      match tokens with
      | [] => .error .indexError
      | tok :: rest =>
        match get_normalized_kwarg tok with
        | some w =>
          if designatedKwargs.contains w then
            let p := consume_trailing_comment tok.row rest
            let kwnode : TreeNode := .node .KEYWORD false (.leaf tok :: p.1)
            match inst_run f (.targets (installSubtreeBS bs)) p.2 with
            | .ok (subKids, rem) =>
              .ok ([.node .KWARGGROUP false (kwnode :: subKids)], rem)
            | .error e => .error e
          else
            match installKwargs.lookup w with
            | some pp =>
              let p := consume_trailing_comment tok.row rest
              let kwnode : TreeNode := .node .KEYWORD false (.leaf tok :: p.1)
              match parse_positionals f p.2 pp.npargs pp.flags (installKwargBS bs) false with
              | .ok (t, rem) => .ok ([.node .KWARGGROUP false [kwnode, t]], rem)
              | .error e => .error e
            | none =>
              match parse_positionals f (tok :: rest) .oneOrMore installFlags
                  (installPositionalBS bs) false with
              | .ok (t, rem) => .ok ([t], rem)
              | .error e => .error e
        | none =>
          match parse_positionals f (tok :: rest) .oneOrMore installFlags
              (installPositionalBS bs) false with
          | .ok (t, rem) => .ok ([t], rem)
          | .error e => .error e

/-- install.py lines 47-153: `parse_install_targets` as a grammar
function returning one tree node and the unconsumed remainder. -/
def parse_install_targets (fuel : Nat) (tokens : List Token)
    (breakstack : List Breaker) : Except PErr (TreeNode × List Token) :=
  match inst_run fuel (.targets breakstack) tokens with
  | .ok (t :: _, rem) => .ok (t, rem)
  | .ok ([], rem) => .ok (.node .ARGGROUP false [], rem)
  | .error e => .error e

/-- One iteration of the classification at the top of the main loop of
`parse_install_targets` (install.py lines 142-149). -/
def install_step (fuel : Nat) (tokens : List Token) (breakstack : List Breaker) :
    Except PErr (List TreeNode × List Token) :=
  inst_run fuel (.step breakstack) tokens

/-- The incoming breakstack a call of the `parse_install_targets`
recursion carries. -/
def instCallBS : InstCall → List Breaker
  | .targets bs => bs
  | .loop bs => bs
  | .step bs => bs

/-- install.py lines 156-185: `parse_install_files`. -/
def parse_install_files (fuel : Nat) (tokens : List Token)
    (breakstack : List Breaker) : Except PErr (TreeNode × List Token) :=
  parse_standard fuel tokens .zeroOrMore
    [("FILES", .positional ⟨.oneOrMore, []⟩),
     ("PROGRAMS", .positional ⟨.oneOrMore, []⟩),
     ("TYPE", .positional ⟨.exact 1, []⟩),
     ("DESTINATION", .positional ⟨.exact 1, []⟩),
     ("PERMISSIONS", .positional ⟨.oneOrMore, []⟩),
     ("CONFIGURATIONS", .positional ⟨.oneOrMore, []⟩),
     ("COMPONENT", .positional ⟨.exact 1, []⟩),
     ("RENAME", .positional ⟨.exact 1, []⟩)]
    ["OPTIONAL", "EXCLUDE_FROM_ALL"]
    breakstack

/-- install.py lines 188-226: `parse_install_directory`. -/
def parse_install_directory (fuel : Nat) (tokens : List Token)
    (breakstack : List Breaker) : Except PErr (TreeNode × List Token) :=
  parse_standard fuel tokens .zeroOrMore
    [("DIRECTORY", .positional ⟨.oneOrMore, []⟩),
     ("TYPE", .positional ⟨.exact 1, []⟩),
     ("DESTINATION", .positional ⟨.exact 1, []⟩),
     ("FILE_PERMISSIONS", .positional ⟨.oneOrMore, []⟩),
     ("DIRECTORY_PERMISSIONS", .positional ⟨.oneOrMore, []⟩),
     ("CONFIGURATIONS", .positional ⟨.oneOrMore, []⟩),
     ("COMPONENT", .positional ⟨.exact 1, []⟩),
     ("RENAME", .positional ⟨.exact 1, []⟩),
     ("PATTERN", .pattern),
     ("REGEX", .pattern)]
    ["USER_SOURCE_PERMISSIONS", "OPTIONAL", "MESSAGE_NEVER", "FILES_MATCHING"]
    breakstack

/-- install.py lines 229-249: `parse_install_script`. -/
def parse_install_script (fuel : Nat) (tokens : List Token)
    (breakstack : List Breaker) : Except PErr (TreeNode × List Token) :=
  parse_standard fuel tokens .zeroOrMore
    [("SCRIPT", .positional ⟨.exact 1, []⟩),
     ("CODE", .positional ⟨.exact 1, []⟩),
     ("COMPONENT", .positional ⟨.exact 1, []⟩)]
    ["EXCLUDE_FROM_ALL"]
    breakstack

/-- install.py lines 252-281: `parse_install_export`. -/
def parse_install_export (fuel : Nat) (tokens : List Token)
    (breakstack : List Breaker) : Except PErr (TreeNode × List Token) :=
  parse_standard fuel tokens .zeroOrMore
    [("EXPORT", .positional ⟨.exact 1, []⟩),
     ("DESTINATION", .positional ⟨.exact 1, []⟩),
     ("NAMESPACE", .positional ⟨.exact 1, []⟩),
     ("FILE", .positional ⟨.exact 1, []⟩),
     ("PERMISSIONS", .positional ⟨.oneOrMore, []⟩),
     ("CONFIGURATIONS", .positional ⟨.oneOrMore, []⟩),
     ("COMPONENT", .positional ⟨.exact 1, []⟩)]
    ["EXCLUDE_FROM_ALL"]
    breakstack

/-- install.py lines 284-322: `parse_install`, the dispatcher on the
first semantic token.

With no semantic token at all, the warning at line 302 subscripts
`tokens[0]`: on an empty stream this raises IndexError (modelled as
`.error .indexError`); otherwise it logs via the token's
`get_location()` accessor and falls back to the permissive parse.

With an unrecognized discriminator, the warning at lines 317-318
evaluates `tokens[0].location()`.  Per the token data model, `location`
is a data attribute (source position), not a method — the same file
reads it through `get_location()` at line 302 — so the call expression
raises TypeError before the warning is emitted and before any fallback
parse can run (modelled as `.error .typeError`). -/
def parse_install (fuel : Nat) (tokens : List Token) (breakstack : List Breaker) :
    Except PErr (TreeNode × List Token) :=
  match get_first_semantic_token tokens with
  | none =>
    match tokens with
    | [] => .error .indexError
    | _ :: _ => parse_standard fuel tokens .zeroOrMore [] [] breakstack
  | some tok =>
    let d := toUpperStr tok.spelling
    if d == "TARGETS" then parse_install_targets fuel tokens breakstack
    else if d == "FILES" || d == "PROGRAMS" then parse_install_files fuel tokens breakstack
    else if d == "DIRECTORY" then parse_install_directory fuel tokens breakstack
    else if d == "SCRIPT" || d == "CODE" then parse_install_script fuel tokens breakstack
    else if d == "EXPORT" then parse_install_export fuel tokens breakstack
    else .error .typeError

/-! ## add_executable.py -/

/-- add_executable.py lines 19-31: `parse_add_executable_imported`. -/
def parse_add_executable_imported (fuel : Nat) (tokens : List Token)
    (breakstack : List Breaker) : Except PErr (TreeNode × List Token) :=
  parse_standard fuel tokens .oneOrMore [] ["IMPORTED", "GLOBAL"] breakstack

/-- add_executable.py lines 34-45: `parse_add_executable_alias`. -/
def parse_add_executable_alias (fuel : Nat) (tokens : List Token)
    (breakstack : List Breaker) : Except PErr (TreeNode × List Token) :=
  parse_standard fuel tokens (.exact 3) [] ["ALIAS"] breakstack

/-- add_executable.py lines 60-62: the three states of
`parse_add_executable_standard` (`parsing_name`, `parsing_flags`,
`parsing_sources`). -/
inductive AEPhase where
  | name
  | flags
  | sources
  deriving DecidableEq, Repr

/-- The loop state of `parse_add_executable_standard`.  The Python
code mutates a tree through the alias `active_depth`; here the
children of the name group (`pargKids`), of the sources group
(`srcKids`), and of the top-level tree before/after them (`lead`,
`tailKids`) are accumulated separately and assembled at the end, in
the order the aliased appends produce.  `anchored` records that
`active_depth` was reset to the top-level tree (line 136);
`srcSortable` is the value of `sortable` at the moment the sources
group was created (line 125), which later changes to the local
variable no longer affect. -/
structure AESt where
  phase : AEPhase
  anchored : Bool
  sortable : Bool
  lead : List TreeNode
  pargKids : List TreeNode
  srcSortable : Bool
  srcKids : List TreeNode
  tailKids : List TreeNode
  deriving Repr

/-- add_executable.py lines 95-99: the comment-tag handling of the
local `sortable` variable, embedded branch for branch.  The `elif` at
line 98 tests the identical condition as the `if` at line 96. -/
def aeCommentSortable (stPast : Bool) (sortable : Bool) (tok : Token) : Bool :=
  if stPast then
    if get_tag tok == some "unsort" || get_tag tok == some "unsortable" then false
    else if get_tag tok == some "unsort" || get_tag tok == some "unsortable" then true
    else sortable
  else sortable

/-- `aeCommentSortable` with the `elif` branch of line 98 removed. -/
def aeCommentSortableDeadElim (stPast : Bool) (sortable : Bool) (tok : Token) : Bool :=
  if stPast then
    if get_tag tok == some "unsort" || get_tag tok == some "unsortable" then false
    else sortable
  else sortable

/-- Append a child at the current `active_depth` (the top-level tree
in the name state, the name group in the flags state, the sources
group in the sources state unless `active_depth` was re-anchored to
the tree). -/
def aeAppendAtDepth (st : AESt) (x : TreeNode) : AESt :=
  match st.phase with
  | .name => { st with lead := st.lead ++ [x] }
  | .flags => { st with pargKids := st.pargKids ++ [x] }
  | .sources =>
    if st.anchored then { st with tailKids := st.tailKids ++ [x] }
    else { st with srcKids := st.srcKids ++ [x] }

/-- Modelled from the spec: `only_comments_and_whitespace_remain`
holds when every remaining token up to the end of the current scope
(stream end, closing parenthesis, or a breakstack match) is whitespace
or a comment. -/
def only_comments_and_whitespace_remain (tokens : List Token)
    (breakstack : List Breaker) : Bool :=
  match tokens with
  | [] => true
  | tok :: rest =>
    if tok.type == .RIGHT_PAREN then true
    else if should_break tok breakstack then true
    else if isWhitespaceTok tok || isCommentTok tok then
      only_comments_and_whitespace_remain rest breakstack
    else false

/-- add_executable.py lines 77-137: one iteration of the main loop of
`parse_add_executable_standard`.  Returns the new state, the remaining
tokens, and whether the loop stops (empty stream, line 77, or a right
parenthesis, lines 82-83).  Whitespace (87-89) and comments (93-103)
are appended at `active_depth`; the name state (105-114) consumes the
first semantic token into a fresh one-element positional group; the
flags state (115-127) consumes a declared flag, or transitions to the
sources state without consuming anything else; the sources state
(128-136) consumes one token into the sources group and re-anchors
`active_depth` to the tree when only comments and whitespace remain. -/
def aeStep (st : AESt) (tokens : List Token) (breakstack : List Breaker) :
    AESt × List Token × Bool :=
  match tokens with
  | [] => (st, [], true)
  | tok :: rest =>
    if tok.type == .RIGHT_PAREN then (st, tok :: rest, true)
    else if isWhitespaceTok tok then (aeAppendAtDepth st (.leaf tok), rest, false)
    else if isCommentTok tok then
      let st1 := { st with sortable := aeCommentSortable (st.phase != .name) st.sortable tok }
      (aeAppendAtDepth st1 (.node .COMMENT false [.leaf tok]), rest, false)
    else
      match st.phase with
      | .name =>
        let p := consume_trailing_comment tok.row rest
        ({ st with phase := .flags, pargKids := [.node .ARGUMENT false (.leaf tok :: p.1)] },
         p.2, false)
      | .flags =>
        if optContains (get_normalized_kwarg tok) ["WIN32", "MACOSX_BUNDLE", "EXCLUDE_FROM_ALL"] then
          let p := consume_trailing_comment tok.row rest
          ({ st with pargKids := st.pargKids ++ [.node .FLAG false (.leaf tok :: p.1)] },
           p.2, false)
        else
          ({ st with
              phase := AEPhase.sources
              srcSortable := st.sortable
              srcKids := []
              anchored := false }, tok :: rest, false)
      | .sources =>
        let p := consume_trailing_comment tok.row rest
        let st1 := { st with srcKids := st.srcKids ++ [.node .ARGUMENT false (.leaf tok :: p.1)] }
        if only_comments_and_whitespace_remain p.2 breakstack then
          ({ st1 with anchored := true }, p.2, false)
        else (st1, p.2, false)

/-- The main loop of `parse_add_executable_standard`: iterate `aeStep`
until it stops. -/
def aeLoop (fuel : Nat) (st : AESt) (tokens : List Token) (breakstack : List Breaker) :
    Except PErr (AESt × List Token) :=
  match fuel with
  | 0 => .error .fuel
  | f + 1 =>
    let r := aeStep st tokens breakstack
    if r.2.2 then .ok (r.1, r.2.1) else aeLoop f r.1 r.2.1 breakstack

/-- Assemble the final tree of `parse_add_executable_standard`: the
top-level children before the name group, the name group (once the
name state was left), the sources group (once the flags state was
left, carrying the sortable metadata captured at its creation), and
the top-level children appended after re-anchoring. -/
def aeAssemble (st : AESt) : TreeNode :=
  .node .ARGGROUP false
    (st.lead ++
     (match st.phase with
      | .name => []
      | _ => [.node .PARGGROUP false st.pargKids]) ++
     (match st.phase with
      | .sources => [.node .PARGGROUP st.srcSortable st.srcKids]
      | _ => []) ++
     st.tailKids)

/-- add_executable.py lines 48-138: `parse_add_executable_standard`.
Leading whitespace goes directly into the tree (lines 68-70), then the
three-state machine runs. -/
def parse_add_executable_standard (fuel : Nat) (tokens : List Token)
    (breakstack : List Breaker) (sortable : Bool) : Except PErr (TreeNode × List Token) :=
  let st0 : AESt :=
    ⟨.name, false, sortable, (tokens.takeWhile isWhitespaceTok).map .leaf, [], false, [], []⟩
  match aeLoop fuel st0 (tokens.dropWhile isWhitespaceTok) breakstack with
  | .ok (st, rem) => .ok (aeAssemble st, rem)
  | .error e => .error e

/-- add_executable.py lines 141-183: `parse_add_executable`, the
dispatcher on the second semantic token.

With fewer than two semantic tokens the warning at lines 162-163
subscripts `tokens[0]`: on an empty stream this raises IndexError
(modelled as `.error .indexError`); otherwise it logs via
`get_location()` and falls back to the permissive parse.  An ALIAS or
IMPORTED discriminator selects the dedicated form; otherwise the
default form runs, with sortability inference disabled when the
discriminator's spelling contains the variable-dereference marker
(lines 179-181). -/
def parse_add_executable (fuel : Nat) (tokens : List Token) (breakstack : List Breaker) :
    Except PErr (TreeNode × List Token) :=
  match (iter_semantic_tokens tokens)[1]? with
  | none =>
    match tokens with
    | [] => .error .indexError
    | _ :: _ => parse_standard fuel tokens .zeroOrMore [] [] breakstack
  | some second =>
    let d := toUpperStr second.spelling
    if d == "ALIAS" then parse_add_executable_alias fuel tokens breakstack
    else if d == "IMPORTED" then parse_add_executable_imported fuel tokens breakstack
    else parse_add_executable_standard fuel tokens breakstack (!containsDeref second.spelling)

/-! ## Observation helpers over argument trees -/

mutual

/-- A node and all its descendant nodes, in preorder. -/
def allNodes : TreeNode → List TreeNode
  | .leaf tok => [.leaf tok]
  | .node ty so kids => .node ty so kids :: allNodesList kids

def allNodesList : List TreeNode → List TreeNode
  | [] => []
  | k :: ks => allNodes k ++ allNodesList ks

end

/-- Whether a node is a keyword group whose keyword token normalizes
to the given word. -/
def isKwargGroupNamed (w : String) (t : TreeNode) : Bool :=
  match t with
  | .node .KWARGGROUP _ (TreeNode.node .KEYWORD _ (TreeNode.leaf kw :: _) :: _) =>
    toUpperStr kw.spelling == w
  | _ => false

/-- All keyword groups (anywhere in the tree) introduced by the given
keyword. -/
def descKwargGroups (w : String) (t : TreeNode) : List TreeNode :=
  (allNodes t).filter (isKwargGroupNamed w)

/-- The spellings of the tokens held by `ARGUMENT` nodes anywhere in
the tree, in order. -/
def argWords (t : TreeNode) : List String :=
  (allNodes t).filterMap fun n =>
    match n with
    | .node .ARGUMENT _ (.leaf tok :: _) => some tok.spelling
    | _ => none

/-- The spellings of the tokens held by `FLAG` nodes anywhere in the
tree, in order. -/
def flagWords (t : TreeNode) : List String :=
  (allNodes t).filterMap fun n =>
    match n with
    | .node .FLAG _ (.leaf tok :: _) => some tok.spelling
    | _ => none

/-- The number of `FLAG` nodes anywhere in the tree. -/
def countFlagNodes (t : TreeNode) : Nat :=
  (flagWords t).length

/-- The number of keyword groups anywhere in the tree. -/
def countKwargGroups (t : TreeNode) : Nat :=
  ((allNodes t).filter fun n =>
    match n with
    | .node .KWARGGROUP _ _ => true
    | _ => false).length

/-- The direct children of a node that are positional groups. -/
def pargGroupsOf (t : TreeNode) : List TreeNode :=
  match t with
  | .node _ _ kids =>
    kids.filter fun k =>
      match k with
      | .node .PARGGROUP _ _ => true
      | _ => false
  | .leaf _ => []

/-- The sortable metadata of a node. -/
def groupSortable (t : TreeNode) : Bool :=
  match t with
  | .node _ so _ => so
  | .leaf _ => false

/-- The sortable metadata of every node in the tree, in preorder. -/
def nodeSortables (t : TreeNode) : List Bool :=
  (allNodes t).filterMap fun n =>
    match n with
    | .node _ so _ => some so
    | .leaf _ => none

/-- The spellings of the semantic tokens reachable from the tree, in
order. -/
def semanticWords (t : TreeNode) : List String :=
  ((treeTokens t).filter isSemanticTok).map Token.spelling

/-- The sortable metadata of every node in a list of trees, in
preorder. -/
def sortablesList (l : List TreeNode) : List Bool :=
  (allNodesList l).filterMap fun n =>
    match n with
    | .node _ so _ => some so
    | .leaf _ => none

/-- All sortable metadata tracked by the `parse_add_executable_standard`
loop state is false: the local variable, the captured sources-group
flag, and every node already built. -/
def aeAllFalse (st : AESt) : Prop :=
  st.sortable = false ∧ st.srcSortable = false ∧
  (∀ b ∈ sortablesList st.lead, b = false) ∧
  (∀ b ∈ sortablesList st.pargKids, b = false) ∧
  (∀ b ∈ sortablesList st.srcKids, b = false) ∧
  (∀ b ∈ sortablesList st.tailKids, b = false)

/-! ## Concrete inputs for the scenarios -/

/-- A WORD token on row 1. -/
def wordTok (s : String) : Token := ⟨.WORD, s, 1⟩

/-- A whitespace token on row 1. -/
def wsTok : Token := ⟨.WHITESPACE, " ", 1⟩

/-- The closing-parenthesis token of the argument list. -/
def rparenTok : Token := ⟨.RIGHT_PAREN, ")", 1⟩

/-- The argument tokens of
`install(TARGETS foo bar ARCHIVE DESTINATION lib LIBRARY DESTINATION lib64)`. -/
def c1Tokens : List Token :=
  [wordTok "TARGETS", wsTok, wordTok "foo", wsTok, wordTok "bar", wsTok,
   wordTok "ARCHIVE", wsTok, wordTok "DESTINATION", wsTok, wordTok "lib", wsTok,
   wordTok "LIBRARY", wsTok, wordTok "DESTINATION", wsTok, wordTok "lib64", rparenTok]

/-- The argument tokens of `add_executable(foo bar.c baz.c)`. -/
def c6Tokens : List Token :=
  [wordTok "foo", wsTok, wordTok "bar.c", wsTok, wordTok "baz.c", rparenTok]

/-- The argument tokens of `add_executable(foo ALIAS bar)`. -/
def c7Tokens : List Token :=
  [wordTok "foo", wsTok, wordTok "ALIAS", wsTok, wordTok "bar", rparenTok]

/-- A WORD token whose spelling is an unresolved variable dereference
(dollar-brace SRCS brace). -/
def derefTok : Token := ⟨.WORD, "$\x7bSRCS\x7d", 1⟩

/-- The argument tokens of an `add_executable` call whose second
argument is an unresolved variable dereference. -/
def c8Tokens : List Token := [wordTok "foo", wsTok, derefTok, rparenTok]

/-- The loop state of `parse_add_executable_standard` reached in
`add_executable(foo bar.c ...)` right after the name `foo` and the
following whitespace were consumed: flags state, name group holding
`foo`, sortable inferred true. -/
def c2State : AESt :=
  ⟨.flags, false, true, [],
   [.node .ARGUMENT false [.leaf (wordTok "foo")], .leaf wsTok], false, [], []⟩

/-! ## Invariants -/

/-- A breakstack made only of the structural parenthesis breaker — the
stack a top-level command's grammar function receives from the parse
driver. -/
def parenOnly (bs : List Breaker) : Prop :=
  ∀ b ∈ bs, b = Breaker.paren

/-- Invariant of the `parse_add_executable_standard` loop state
relative to the remaining tokens: children are appended to the
top-level tree after the sources group only once `active_depth` was
re-anchored, which happens only in the sources state and only when
nothing semantic remains in scope. -/
def aeInv (bs : List Breaker) (st : AESt) (toks : List Token) : Prop :=
  (st.anchored = false → st.tailKids = []) ∧
  (st.anchored = true →
    st.phase = .sources ∧ only_comments_and_whitespace_remain toks bs = true)

/-- The tokens already owned by the loop state, in assembled order. -/
def aeTokens (st : AESt) : List Token :=
  treeTokens (aeAssemble st)

/-! ## Token accounting (losslessness) -/

theorem flatTokens_append (a b : List TreeNode) :
    flatTokens (a ++ b) = flatTokens a ++ flatTokens b := by
  induction a with
  | nil => simp [flatTokens]
  | cons x xs ih => simp [flatTokens, ih]

theorem flatTokens_map_leaf (l : List Token) : flatTokens (l.map .leaf) = l := by
  induction l with
  | nil => rfl
  | cons x xs ih => simp [flatTokens, treeTokens, ih]

theorem consKid_ok {x : TreeNode} {r : Except PErr (List TreeNode × List Token)}
    {kids : List TreeNode} {rem : List Token} (h : consKid x r = .ok (kids, rem)) :
    ∃ kids0, r = .ok (kids0, rem) ∧ kids = x :: kids0 := by
  cases r with
  | ok p =>
    obtain ⟨a, b⟩ := p
    simp only [consKid] at h
    injection h with h'
    injection h' with h1 h2
    exact ⟨a, by rw [h2], h1.symm⟩
  | error e => simp [consKid] at h

theorem consume_trailing_comment_tokens (row : Nat) (ts : List Token) :
    flatTokens (consume_trailing_comment row ts).1 ++
      (consume_trailing_comment row ts).2 = ts := by
  cases ts with
  | nil => rfl
  | cons c rest =>
    by_cases h : (isCommentTok c && c.row == row) = true
    · simp [consume_trailing_comment, h, flatTokens, treeTokens]
    · simp [consume_trailing_comment, h, flatTokens]

theorem consume_trailing_comment_length (row : Nat) (ts : List Token) :
    (consume_trailing_comment row ts).2.length ≤ ts.length := by
  have h := congrArg List.length (consume_trailing_comment_tokens row ts)
  simp only [List.length_append] at h
  omega

theorem parse_positionals_run_tokens :
    ∀ (f : Nat) (np : Npargs) (fl : List String) (bs : List Breaker) (nc : Nat)
      (toks : List Token) (kids : List TreeNode) (rem : List Token),
      parse_positionals_run f np fl bs nc toks = .ok (kids, rem) →
      flatTokens kids ++ rem = toks := by
  intro f
  induction f with
  | zero => intro np fl bs nc toks kids rem h; simp [parse_positionals_run] at h
  | succ f ih =>
    intro np fl bs nc toks kids rem h
    match toks with
    | [] =>
      simp only [parse_positionals_run] at h
      injection h with h'
      injection h' with h1 h2
      subst h1; subst h2; rfl
    | tok :: rest =>
      simp only [parse_positionals_run] at h
      split at h
      · injection h with h'
        injection h' with h1 h2
        subst h1; subst h2; rfl
      · split at h
        · injection h with h'
          injection h' with h1 h2
          subst h1; subst h2; rfl
        · split at h
          · injection h with h'
            injection h' with h1 h2
            subst h1; subst h2; rfl
          · split at h
            · obtain ⟨kids0, hr, hk⟩ := consKid_ok h
              have := ih _ _ _ _ _ _ _ hr
              subst hk
              simp only [flatTokens, treeTokens, List.cons_append, List.append_assoc]
              rw [this]
              simp
            · split at h
              · obtain ⟨kids0, hr, hk⟩ := consKid_ok h
                have := ih _ _ _ _ _ _ _ hr
                subst hk
                simp only [flatTokens, treeTokens, List.cons_append, List.append_assoc,
                  List.nil_append, List.append_nil]
                rw [this]
              · obtain ⟨kids0, hr, hk⟩ := consKid_ok h
                have hrec := ih _ _ _ _ _ _ _ hr
                subst hk
                have hctc := consume_trailing_comment_tokens tok.row rest
                simp only [flatTokens, treeTokens, List.cons_append, List.append_assoc]
                rw [hrec, hctc]
                simp

theorem parse_positionals_run_length {f : Nat} {np : Npargs} {fl : List String}
    {bs : List Breaker} {nc : Nat} {toks : List Token} {kids : List TreeNode}
    {rem : List Token} (h : parse_positionals_run f np fl bs nc toks = .ok (kids, rem)) :
    rem.length ≤ toks.length := by
  have := congrArg List.length (parse_positionals_run_tokens f np fl bs nc toks kids rem h)
  simp only [List.length_append] at this
  omega

theorem parse_positionals_tokens {f : Nat} {toks rem : List Token} {np : Npargs}
    {fl : List String} {bs : List Breaker} {so : Bool} {t : TreeNode}
    (h : parse_positionals f toks np fl bs so = .ok (t, rem)) :
    treeTokens t ++ rem = toks := by
  unfold parse_positionals at h
  cases hres : parse_positionals_run f np fl bs 0 toks with
  | ok p =>
    obtain ⟨kids, rem0⟩ := p
    rw [hres] at h
    injection h with h'
    injection h' with h1 h2
    subst h1; subst h2
    simpa [treeTokens] using parse_positionals_run_tokens f np fl bs 0 toks _ _ hres
  | error e => rw [hres] at h; simp at h

theorem parse_positionals_length {f : Nat} {toks rem : List Token} {np : Npargs}
    {fl : List String} {bs : List Breaker} {so : Bool} {t : TreeNode}
    (h : parse_positionals f toks np fl bs so = .ok (t, rem)) :
    rem.length ≤ toks.length := by
  have := congrArg List.length (parse_positionals_tokens h)
  simp only [List.length_append] at this
  omega

theorem consKid_error {x : TreeNode} {r : Except PErr (List TreeNode × List Token)}
    {e : PErr} (h : consKid x r = .error e) : r = .error e := by
  cases r with
  | ok p => obtain ⟨a, b⟩ := p; simp [consKid] at h
  | error e2 => simp only [consKid] at h; injection h with h'; rw [h']

theorem parse_positionals_run_error :
    ∀ (f : Nat) (np : Npargs) (fl : List String) (bs : List Breaker) (nc : Nat)
      (toks : List Token) (e : PErr),
      parse_positionals_run f np fl bs nc toks = .error e → e = .fuel := by
  intro f
  induction f with
  | zero =>
    intro np fl bs nc toks e h
    simp only [parse_positionals_run] at h
    injection h with h'
    exact h'.symm
  | succ f ih =>
    intro np fl bs nc toks e h
    match toks with
    | [] => simp [parse_positionals_run] at h
    | tok :: rest =>
      simp only [parse_positionals_run] at h
      split at h
      · simp at h
      · split at h
        · simp at h
        · split at h
          · simp at h
          · split at h
            · exact ih _ _ _ _ _ _ (consKid_error h)
            · split at h
              · exact ih _ _ _ _ _ _ (consKid_error h)
              · exact ih _ _ _ _ _ _ (consKid_error h)

theorem std_run_tokens :
    ∀ (f : Nat) (call : StdCall) (toks : List Token) (kids : List TreeNode)
      (rem : List Token),
      std_run f call toks = .ok (kids, rem) → flatTokens kids ++ rem = toks := by
  intro f
  induction f with
  | zero => intro call toks kids rem h; simp [std_run] at h
  | succ f ih =>
    intro call toks kids rem h
    match call with
    | .pattern bs =>
      simp only [std_run] at h
      split at h
      next kids0 rem0 heq =>
        injection h with h'
        injection h' with h1 h2
        subst h1; subst h2
        simpa [flatTokens, treeTokens] using ih _ _ _ _ heq
      next => simp at h
    | .loop npargs kwargs flags bs =>
      match toks with
      | [] =>
        simp only [std_run] at h
        injection h with h'
        injection h' with h1 h2
        subst h1; subst h2; rfl
      | tok :: rest =>
        simp only [std_run] at h
        split at h
        · injection h with h'
          injection h' with h1 h2
          subst h1; subst h2; rfl
        · split at h
          · obtain ⟨kids0, hr, hk⟩ := consKid_ok h
            have := ih _ _ _ _ hr
            subst hk
            simp only [flatTokens, treeTokens, List.cons_append, List.append_assoc]
            rw [this]
            simp
          · split at h
            · obtain ⟨kids0, hr, hk⟩ := consKid_ok h
              have := ih _ _ _ _ hr
              subst hk
              simp only [flatTokens, treeTokens, List.cons_append, List.append_assoc,
                List.nil_append, List.append_nil]
              rw [this]
            · -- classification of a semantic token
              split at h
              next e heq => simp at h
              next subtree rem0 heq =>
                split at h
                · obtain ⟨kids0, hr, hk⟩ := consKid_ok h
                  have hloop := ih _ _ _ _ hr
                  subst hk
                  have hsub : treeTokens subtree ++ rem0 = tok :: rest := by
                    clear h
                    split at heq
                    next spec hlk =>
                      split at heq
                      next subKids rem1 hpay =>
                        injection heq with h'
                        injection h' with h1 h2
                        subst h1; subst h2
                        have hctc := consume_trailing_comment_tokens tok.row rest
                        split at hpay
                        next pp =>
                          split at hpay
                          next t1 r1 hpos =>
                            injection hpay with h''
                            injection h'' with h3 h4
                            subst h3; subst h4
                            have := parse_positionals_tokens hpos
                            simp only [treeTokens, flatTokens, List.cons_append,
                              List.append_assoc, List.append_nil]
                            rw [this, hctc]
                            simp
                          next => simp at hpay
                        next =>
                          have := ih _ _ _ _ hpay
                          simp only [treeTokens, flatTokens, List.cons_append,
                            List.append_assoc]
                          rw [this, hctc]
                          simp
                      next => simp at heq
                    next =>
                      exact parse_positionals_tokens heq
                  calc flatTokens (subtree :: kids0) ++ rem
                      = treeTokens subtree ++ (flatTokens kids0 ++ rem) := by
                        simp [flatTokens, List.append_assoc]
                    _ = treeTokens subtree ++ rem0 := by rw [hloop]
                    _ = tok :: rest := hsub
                · simp at h

theorem parse_standard_tokens {f : Nat} {toks rem : List Token} {np : Npargs}
    {kwargs : List (String × KwargSpec)} {flags : List String} {bs : List Breaker}
    {t : TreeNode} (h : parse_standard f toks np kwargs flags bs = .ok (t, rem)) :
    treeTokens t ++ rem = toks := by
  unfold parse_standard at h
  cases hres : std_run f (.loop np kwargs flags bs) toks with
  | ok p =>
    obtain ⟨kids, rem0⟩ := p
    rw [hres] at h
    injection h with h'
    injection h' with h1 h2
    subst h1; subst h2
    simpa [treeTokens] using std_run_tokens f _ toks _ _ hres
  | error e => rw [hres] at h; simp at h

theorem inst_run_tokens :
    ∀ (f : Nat) (call : InstCall) (toks : List Token) (kids : List TreeNode)
      (rem : List Token),
      inst_run f call toks = .ok (kids, rem) → flatTokens kids ++ rem = toks := by
  intro f
  induction f with
  | zero => intro call toks kids rem h; simp [inst_run] at h
  | succ f ih =>
    intro call toks kids rem h
    match call with
    | .targets bs =>
      simp only [inst_run] at h
      split at h
      next kids0 rem0 heq =>
        injection h with h'
        injection h' with h1 h2
        subst h1; subst h2
        have hloop := ih _ _ _ _ heq
        simp only [flatTokens, treeTokens, List.append_nil, flatTokens_append,
          flatTokens_map_leaf, List.append_assoc]
        rw [hloop, List.takeWhile_append_dropWhile]
      next => simp at h
    | .loop bs =>
      match toks with
      | [] =>
        simp only [inst_run] at h
        injection h with h'
        injection h' with h1 h2
        subst h1; subst h2; rfl
      | tok :: rest =>
        simp only [inst_run] at h
        split at h
        · injection h with h'
          injection h' with h1 h2
          subst h1; subst h2; rfl
        · split at h
          · obtain ⟨kids0, hr, hk⟩ := consKid_ok h
            have := ih _ _ _ _ hr
            subst hk
            simp only [flatTokens, treeTokens, List.cons_append, List.append_assoc]
            rw [this]
            simp
          · split at h
            · obtain ⟨kids0, hr, hk⟩ := consKid_ok h
              have := ih _ _ _ _ hr
              subst hk
              simp only [flatTokens, treeTokens, List.cons_append, List.append_assoc,
                List.nil_append, List.append_nil]
              rw [this]
            · split at h
              next e heq => simp at h
              next subKids rem0 heq =>
                have hstep := ih _ _ _ _ heq
                split at h
                · split at h
                  next kids1 rem2 hr =>
                    injection h with h'
                    injection h' with h1 h2
                    subst h1; subst h2
                    have hloop := ih _ _ _ _ hr
                    rw [flatTokens_append, List.append_assoc, hloop]
                    exact hstep
                  next => simp at h
                · simp at h
    | .step bs =>
      match toks with
      | [] => simp [inst_run] at h
      | tok :: rest =>
        simp only [inst_run] at h
        split at h
        next w hw =>
          split at h
          · -- designated sub-group: recursion into the targets form
            split at h
            next subKids rem0 heq =>
              injection h with h'
              injection h' with h1 h2
              subst h1; subst h2
              have hsub := ih _ _ _ _ heq
              have hctc := consume_trailing_comment_tokens tok.row rest
              simp only [flatTokens, treeTokens, List.cons_append, List.append_assoc,
                List.append_nil]
              rw [hsub, hctc]
              simp
            next => simp at h
          · split at h
            next pp hlk =>
              split at h
              next t1 r1 hpos =>
                injection h with h'
                injection h' with h1 h2
                subst h1; subst h2
                have hsub := parse_positionals_tokens hpos
                have hctc := consume_trailing_comment_tokens tok.row rest
                simp only [flatTokens, treeTokens, List.cons_append, List.append_assoc,
                  List.append_nil]
                rw [hsub, hctc]
                simp
              next => simp at h
            next =>
              split at h
              next t1 r1 hpos =>
                injection h with h'
                injection h' with h1 h2
                subst h1; subst h2
                simpa [flatTokens] using parse_positionals_tokens hpos
              next => simp at h
        next hw =>
          split at h
          next t1 r1 hpos =>
            injection h with h'
            injection h' with h1 h2
            subst h1; subst h2
            simpa [flatTokens] using parse_positionals_tokens hpos
          next => simp at h

theorem inst_run_length {f : Nat} {call : InstCall} {toks rem : List Token}
    {kids : List TreeNode} (h : inst_run f call toks = .ok (kids, rem)) :
    rem.length ≤ toks.length := by
  have := congrArg List.length (inst_run_tokens f call toks kids rem h)
  simp only [List.length_append] at this
  omega

theorem parse_install_targets_tokens {f : Nat} {toks rem : List Token}
    {bs : List Breaker} {t : TreeNode}
    (h : parse_install_targets f toks bs = .ok (t, rem)) :
    treeTokens t ++ rem = toks := by
  unfold parse_install_targets at h
  cases hres : inst_run f (.targets bs) toks with
  | ok p =>
    obtain ⟨kids, rem0⟩ := p
    rw [hres] at h
    have htok := inst_run_tokens f _ toks _ _ hres
    match kids, htok with
    | [], htok =>
      injection h with h'
      injection h' with h1 h2
      subst h1; subst h2
      simpa [treeTokens, flatTokens] using htok
    | t0 :: kids0, htok =>
      injection h with h'
      injection h' with h1 h2
      subst h1; subst h2
      -- the `targets` form always returns a single node, so no tokens hide in the tail
      have hshape : kids0 = [] := by
        match f with
        | 0 => simp [inst_run] at hres
        | f' + 1 =>
          simp only [inst_run] at hres
          split at hres
          next kids1 rem1 heq =>
            injection hres with h''
            injection h'' with h3 h4
            injection h3 with h3a h3b
            exact h3b.symm
          next => simp at hres
      subst hshape
      simpa [flatTokens] using htok
  | error e => rw [hres] at h; simp at h

theorem should_break_parenOnly {bs : List Breaker} {tok : Token} (hbs : parenOnly bs)
    (h : should_break tok bs = true) : (tok.type == TokenType.RIGHT_PAREN) = true := by
  simp only [should_break, List.any_eq_true] at h
  obtain ⟨b, hb, hm⟩ := h
  rw [hbs b hb] at hm
  exact hm

theorem only_cw_tail {bs : List Breaker} {tok : Token} {rest : List Token}
    (hbs : parenOnly bs) (hcw : (isWhitespaceTok tok || isCommentTok tok) = true)
    (h : only_comments_and_whitespace_remain (tok :: rest) bs = true) :
    only_comments_and_whitespace_remain rest bs = true := by
  have hrp : (tok.type == TokenType.RIGHT_PAREN) = false := by
    rcases Bool.or_eq_true _ _ |>.mp hcw with hw | hc
    · rcases Bool.or_eq_true _ _ |>.mp hw with h1 | h1 <;>
        · rw [beq_iff_eq] at h1; rw [h1]; rfl
    · rcases Bool.or_eq_true _ _ |>.mp hc with h1 | h1 <;>
        · rw [beq_iff_eq] at h1; rw [h1]; rfl
  have hsb : should_break tok bs = false := by
    cases hsb : should_break tok bs
    · rfl
    · rw [should_break_parenOnly hbs hsb] at hrp; cases hrp
  rw [only_comments_and_whitespace_remain, hrp, hsb, hcw] at h
  simpa using h

theorem only_cw_not_semantic {bs : List Breaker} {tok : Token} {rest : List Token}
    (hbs : parenOnly bs) (hrp : (tok.type == TokenType.RIGHT_PAREN) = false)
    (hw : isWhitespaceTok tok = false) (hc : isCommentTok tok = false) :
    only_comments_and_whitespace_remain (tok :: rest) bs = false := by
  have hsb : should_break tok bs = false := by
    cases hsb : should_break tok bs
    · rfl
    · rw [should_break_parenOnly hbs hsb] at hrp; cases hrp
  rw [only_comments_and_whitespace_remain, hrp, hsb, hw, hc]
  rfl

theorem aeAppendAtDepth_phase (st : AESt) (x : TreeNode) :
    (aeAppendAtDepth st x).phase = st.phase := by
  unfold aeAppendAtDepth
  split
  · rfl
  · rfl
  · split <;> rfl

theorem aeAppendAtDepth_anchored (st : AESt) (x : TreeNode) :
    (aeAppendAtDepth st x).anchored = st.anchored := by
  unfold aeAppendAtDepth
  split
  · rfl
  · rfl
  · split <;> rfl

theorem aeAppendAtDepth_sortable (st : AESt) (x : TreeNode) :
    (aeAppendAtDepth st x).sortable = st.sortable := by
  unfold aeAppendAtDepth
  split
  · rfl
  · rfl
  · split <;> rfl

theorem aeAppendAtDepth_tailKids_of_not_anchored {st : AESt} (x : TreeNode)
    (hanc : st.anchored = false) : (aeAppendAtDepth st x).tailKids = st.tailKids := by
  unfold aeAppendAtDepth
  split
  · rfl
  · rfl
  · rw [hanc]; simp

theorem aeTokens_appendAtDepth {st : AESt} (x : TreeNode)
    (htl : st.anchored = false → st.tailKids = [])
    (han : st.anchored = true → st.phase = .sources) :
    aeTokens (aeAppendAtDepth st x) = aeTokens st ++ treeTokens x := by
  cases hph : st.phase with
  | name =>
    have hanc : st.anchored = false := by
      cases hanc : st.anchored
      · rfl
      · have := han hanc; rw [hph] at this; cases this
    simp [aeAppendAtDepth, hph, aeTokens, aeAssemble, htl hanc, treeTokens,
      flatTokens_append, flatTokens]
  | flags =>
    have hanc : st.anchored = false := by
      cases hanc : st.anchored
      · rfl
      · have := han hanc; rw [hph] at this; cases this
    simp [aeAppendAtDepth, hph, aeTokens, aeAssemble, htl hanc, treeTokens,
      flatTokens_append, flatTokens]
  | sources =>
    cases hanc : st.anchored with
    | false =>
      simp [aeAppendAtDepth, hph, hanc, aeTokens, aeAssemble, htl hanc, treeTokens,
        flatTokens_append, flatTokens]
    | true =>
      simp [aeAppendAtDepth, hph, hanc, aeTokens, aeAssemble, treeTokens,
        flatTokens_append, flatTokens]

theorem aeStep_tokens {st st' : AESt} {toks toks' : List Token} {bs : List Breaker}
    {stop : Bool} (hbs : parenOnly bs) (hinv : aeInv bs st toks)
    (h : aeStep st toks bs = (st', toks', stop)) :
    aeTokens st' ++ toks' = aeTokens st ++ toks := by
  obtain ⟨htl, han⟩ := hinv
  have hanph : st.anchored = true → st.phase = .sources := fun ha => (han ha).1
  match toks with
  | [] =>
    simp only [aeStep] at h
    injection h with h1 h23
    injection h23 with h2 h3
    subst h1; subst h2
    simp
  | tok :: rest =>
    simp only [aeStep] at h
    split at h
    next hrp =>
      injection h with h1 h23
      injection h23 with h2 h3
      subst h1; subst h2
      simp
    next hrp =>
      split at h
      next hw =>
        injection h with h1 h23
        injection h23 with h2 h3
        subst h1; subst h2
        rw [aeTokens_appendAtDepth _ htl hanph]
        simp [treeTokens]
      next hw =>
        split at h
        next hc =>
          injection h with h1 h23
          injection h23 with h2 h3
          subst h1; subst h2
          have hta := @aeTokens_appendAtDepth
            { st with sortable := aeCommentSortable (st.phase != AEPhase.name) st.sortable tok }
            (TreeNode.node NodeType.COMMENT false [TreeNode.leaf tok]) htl hanph
          rw [hta]
          have h2 : aeTokens
              { st with sortable := aeCommentSortable (st.phase != AEPhase.name) st.sortable tok } =
              aeTokens st := rfl
          rw [h2]
          simp [treeTokens, flatTokens]
        next hc =>
          split at h
          next hph =>
            have hanc : st.anchored = false := by
              cases hanc : st.anchored
              · rfl
              · have := hanph hanc; rw [hph] at this; cases this
            injection h with h1 h23
            injection h23 with h2 h3
            subst h1; subst h2
            have hctc := consume_trailing_comment_tokens tok.row rest
            simp only [aeTokens, aeAssemble, hph, htl hanc, treeTokens, flatTokens,
              flatTokens_append, List.append_nil, List.nil_append, List.append_assoc,
              List.cons_append]
            rw [hctc]
          next hph =>
            have hanc : st.anchored = false := by
              cases hanc : st.anchored
              · rfl
              · have := hanph hanc; rw [hph] at this; cases this
            split at h
            next hfl =>
              injection h with h1 h23
              injection h23 with h2 h3
              subst h1; subst h2
              have hctc := consume_trailing_comment_tokens tok.row rest
              simp only [aeTokens, aeAssemble, hph, htl hanc, treeTokens, flatTokens,
                flatTokens_append, List.append_nil, List.nil_append, List.append_assoc,
                List.cons_append]
              rw [hctc]
            next hfl =>
              injection h with h1 h23
              injection h23 with h2 h3
              subst h1; subst h2
              simp [aeTokens, aeAssemble, hph, htl hanc, treeTokens, flatTokens,
                flatTokens_append]
          next hph =>
            cases hanc : st.anchored with
            | true =>
              have hcw := (han hanc).2
              have hrp2 : (tok.type == TokenType.RIGHT_PAREN) = false := by
                simpa using hrp
              have hw2 : isWhitespaceTok tok = false := by simpa using hw
              have hc2 : isCommentTok tok = false := by simpa using hc
              rw [only_cw_not_semantic hbs hrp2 hw2 hc2] at hcw
              cases hcw
            | false =>
              have hctc := consume_trailing_comment_tokens tok.row rest
              split at h
              next hocw =>
                injection h with h1 h23
                injection h23 with h2 h3
                subst h1; subst h2
                simp only [aeTokens, aeAssemble, hph, htl hanc, treeTokens, flatTokens,
                  flatTokens_append, List.append_nil, List.nil_append, List.append_assoc,
                  List.cons_append]
                rw [hctc]
              next hocw =>
                injection h with h1 h23
                injection h23 with h2 h3
                subst h1; subst h2
                simp only [aeTokens, aeAssemble, hph, htl hanc, treeTokens, flatTokens,
                  flatTokens_append, List.append_nil, List.nil_append, List.append_assoc,
                  List.cons_append]
                rw [hctc]

theorem aeStep_inv {st st' : AESt} {toks toks' : List Token} {bs : List Breaker}
    {stop : Bool} (hbs : parenOnly bs) (hinv : aeInv bs st toks)
    (h : aeStep st toks bs = (st', toks', stop)) : aeInv bs st' toks' := by
  obtain ⟨htl, han⟩ := hinv
  have hanph : st.anchored = true → st.phase = .sources := fun ha => (han ha).1
  match toks with
  | [] =>
    simp only [aeStep] at h
    injection h with h1 h23
    injection h23 with h2 h3
    subst h1; subst h2
    refine ⟨htl, fun ha => ⟨(han ha).1, ?_⟩⟩
    rfl
  | tok :: rest =>
    simp only [aeStep] at h
    split at h
    next hrp =>
      injection h with h1 h23
      injection h23 with h2 h3
      subst h1; subst h2
      exact ⟨htl, han⟩
    next hrp =>
      split at h
      next hw =>
        injection h with h1 h23
        injection h23 with h2 h3
        subst h1; subst h2
        constructor
        · intro ha
          rw [aeAppendAtDepth_anchored] at ha
          rw [aeAppendAtDepth_tailKids_of_not_anchored _ ha]
          exact htl ha
        · intro ha
          rw [aeAppendAtDepth_anchored] at ha
          rw [aeAppendAtDepth_phase]
          refine ⟨(han ha).1, only_cw_tail hbs ?_ (han ha).2⟩
          simp [hw]
      next hw =>
        split at h
        next hc =>
          injection h with h1 h23
          injection h23 with h2 h3
          subst h1; subst h2
          constructor
          · intro ha
            rw [aeAppendAtDepth_anchored] at ha
            rw [aeAppendAtDepth_tailKids_of_not_anchored _ ha]
            exact htl ha
          · intro ha
            rw [aeAppendAtDepth_anchored] at ha
            rw [aeAppendAtDepth_phase]
            refine ⟨(han ha).1, only_cw_tail hbs ?_ (han ha).2⟩
            simp [hc]
        next hc =>
          split at h
          next hph =>
            have hanc : st.anchored = false := by
              cases hanc : st.anchored
              · rfl
              · have := hanph hanc; rw [hph] at this; cases this
            injection h with h1 h23
            injection h23 with h2 h3
            subst h1; subst h2
            constructor
            · intro _; exact htl hanc
            · intro ha; rw [hanc] at ha; cases ha
          next hph =>
            have hanc : st.anchored = false := by
              cases hanc : st.anchored
              · rfl
              · have := hanph hanc; rw [hph] at this; cases this
            split at h
            next hfl =>
              injection h with h1 h23
              injection h23 with h2 h3
              subst h1; subst h2
              constructor
              · intro _; exact htl hanc
              · intro ha; rw [hanc] at ha; cases ha
            next hfl =>
              injection h with h1 h23
              injection h23 with h2 h3
              subst h1; subst h2
              constructor
              · intro _; exact htl hanc
              · intro ha; cases ha
          next hph =>
            cases hanc : st.anchored with
            | true =>
              have hcw := (han hanc).2
              have hrp2 : (tok.type == TokenType.RIGHT_PAREN) = false := by
                simpa using hrp
              have hw2 : isWhitespaceTok tok = false := by simpa using hw
              have hc2 : isCommentTok tok = false := by simpa using hc
              rw [only_cw_not_semantic hbs hrp2 hw2 hc2] at hcw
              cases hcw
            | false =>
              split at h
              next hocw =>
                injection h with h1 h23
                injection h23 with h2 h3
                subst h1; subst h2
                constructor
                · intro ha; cases ha
                · intro _; exact ⟨hph, hocw⟩
              next hocw =>
                injection h with h1 h23
                injection h23 with h2 h3
                subst h1; subst h2
                constructor
                · intro _; exact htl hanc
                · intro ha; rw [hanc] at ha; cases ha

theorem aeLoop_tokens :
    ∀ (f : Nat) (st : AESt) (toks : List Token) (bs : List Breaker) (stF : AESt)
      (rem : List Token), parenOnly bs → aeInv bs st toks →
      aeLoop f st toks bs = .ok (stF, rem) →
      aeTokens stF ++ rem = aeTokens st ++ toks := by
  intro f
  induction f with
  | zero => intro st toks bs stF rem hbs hinv h; simp [aeLoop] at h
  | succ f ih =>
    intro st toks bs stF rem hbs hinv h
    have hstep := @aeStep_tokens st (aeStep st toks bs).1 toks
      (aeStep st toks bs).2.1 bs (aeStep st toks bs).2.2 hbs hinv rfl
    have hinv' := @aeStep_inv st (aeStep st toks bs).1 toks
      (aeStep st toks bs).2.1 bs (aeStep st toks bs).2.2 hbs hinv rfl
    simp only [aeLoop] at h
    split at h
    · injection h with h'
      injection h' with h1 h2
      subst h1; subst h2
      exact hstep
    · have := ih _ _ _ _ _ hbs hinv' h
      rw [this]
      exact hstep

theorem parse_add_executable_standard_tokens {f : Nat} {toks rem : List Token}
    {bs : List Breaker} {so : Bool} {t : TreeNode} (hbs : parenOnly bs)
    (h : parse_add_executable_standard f toks bs so = .ok (t, rem)) :
    treeTokens t ++ rem = toks := by
  simp only [parse_add_executable_standard] at h
  split at h
  next stF rem0 heq =>
    injection h with h'
    injection h' with h1 h2
    subst h1; subst h2
    have hinv0 : aeInv bs
        ⟨.name, false, so, (toks.takeWhile isWhitespaceTok).map .leaf, [], false, [], []⟩
        (toks.dropWhile isWhitespaceTok) :=
      ⟨fun _ => rfl, fun ha => nomatch ha⟩
    have hloop := aeLoop_tokens f _ _ bs _ _ hbs hinv0 heq
    have h0 : aeTokens
        (⟨.name, false, so, (toks.takeWhile isWhitespaceTok).map .leaf, [], false, [], []⟩ :
          AESt) = toks.takeWhile isWhitespaceTok := by
      simp [aeTokens, aeAssemble, treeTokens, flatTokens_append, flatTokens_map_leaf,
        flatTokens]
    calc treeTokens (aeAssemble stF) ++ rem0
        = aeTokens stF ++ rem0 := rfl
      _ = toks.takeWhile isWhitespaceTok ++ toks.dropWhile isWhitespaceTok := by
          rw [hloop, h0]
      _ = toks := List.takeWhile_append_dropWhile isWhitespaceTok toks
  next => simp at h

theorem parse_add_executable_tokens {f : Nat} {toks rem : List Token}
    {bs : List Breaker} {t : TreeNode} (hbs : parenOnly bs)
    (h : parse_add_executable f toks bs = .ok (t, rem)) :
    treeTokens t ++ rem = toks := by
  simp only [parse_add_executable] at h
  split at h
  next =>
    split at h
    · simp at h
    · exact parse_standard_tokens h
  next second hsec =>
    split at h
    · exact parse_standard_tokens h
    · split at h
      · exact parse_standard_tokens h
      · exact parse_add_executable_standard_tokens hbs h

theorem parse_install_tokens {f : Nat} {toks rem : List Token} {bs : List Breaker}
    {t : TreeNode} (h : parse_install f toks bs = .ok (t, rem)) :
    treeTokens t ++ rem = toks := by
  simp only [parse_install] at h
  split at h
  next =>
    split at h
    · simp at h
    · exact parse_standard_tokens h
  next tok hsec =>
    split at h
    · exact parse_install_targets_tokens h
    · split at h
      · exact parse_standard_tokens h
      · split at h
        · exact parse_standard_tokens h
        · split at h
          · exact parse_standard_tokens h
          · split at h
            · exact parse_standard_tokens h
            · simp at h

/-! ## Progress of the grammar loops -/

theorem contains_append_eq (a b : List String) (w : String) :
    (a ++ b).contains w = (a.contains w || b.contains w) := by
  induction a with
  | nil => simp
  | cons x xs ih => simp [List.contains_cons, ih, Bool.or_assoc]

theorem lookup_none_not_contains {l : List (String × PositionalParser)} {w : String}
    (h : l.lookup w = none) : (l.map Prod.fst).contains w = false := by
  induction l with
  | nil => rfl
  | cons p ps ih =>
    obtain ⟨k, v⟩ := p
    simp only [List.lookup] at h
    split at h
    next heq => exact Option.noConfusion h
    next heq =>
      simp only [List.map, List.contains_cons, ih h, Bool.or_false]
      exact heq

theorem not_rparen_of_should_break_false {bs : List Breaker} {tok : Token}
    (hmem : Breaker.paren ∈ bs) (hsb : should_break tok bs = false) :
    (tok.type == TokenType.RIGHT_PAREN) = false := by
  cases hrp : tok.type == TokenType.RIGHT_PAREN
  · rfl
  · exfalso
    have : should_break tok bs = true := by
      simp only [should_break, List.any_eq_true]
      exact ⟨Breaker.paren, hmem, hrp⟩
    rw [this] at hsb
    exact Bool.noConfusion hsb

theorem should_break_append (tok : Token) (a b : List Breaker) :
    should_break tok (a ++ b) = (should_break tok a || should_break tok b) := by
  simp [should_break, List.any_append]

theorem parse_positionals_error {f : Nat} {toks : List Token} {np : Npargs}
    {fl : List String} {bs : List Breaker} {so : Bool} {e : PErr}
    (h : parse_positionals f toks np fl bs so = .error e) : e = .fuel := by
  unfold parse_positionals at h
  cases hres : parse_positionals_run f np fl bs 0 toks with
  | ok p => obtain ⟨a, b⟩ := p; rw [hres] at h; simp at h
  | error e2 =>
    rw [hres] at h
    injection h with h'
    exact h' ▸ parse_positionals_run_error f np fl bs 0 toks e2 hres

theorem parse_positionals_consumes {f : Nat} {rest rem : List Token} {np : Npargs}
    {fl : List String} {bs' : List Breaker} {so : Bool} {t : TreeNode} {tok : Token}
    (hnp : npargsReached np 0 = false) (hsb : should_break tok bs' = false)
    (hrpn : (tok.type == TokenType.RIGHT_PAREN) = false)
    (h : parse_positionals f (tok :: rest) np fl bs' so = .ok (t, rem)) :
    rem.length < (tok :: rest).length := by
  unfold parse_positionals at h
  cases hres : parse_positionals_run f np fl bs' 0 (tok :: rest) with
  | error e => rw [hres] at h; simp at h
  | ok p =>
    obtain ⟨kids, rem0⟩ := p
    rw [hres] at h
    injection h with h'
    injection h' with h1 h2
    subst h1; subst h2
    match f with
    | 0 => simp [parse_positionals_run] at hres
    | f + 1 =>
      simp only [parse_positionals_run, hnp, hsb, hrpn, Bool.false_eq_true,
        if_false] at hres
      split at hres
      · obtain ⟨kids0, hr, hk⟩ := consKid_ok hres
        have := parse_positionals_run_length hr
        simp only [List.length_cons]
        omega
      · split at hres
        · obtain ⟨kids0, hr, hk⟩ := consKid_ok hres
          have := parse_positionals_run_length hr
          simp only [List.length_cons]
          omega
        · obtain ⟨kids0, hr, hk⟩ := consKid_ok hres
          have h1 := parse_positionals_run_length hr
          have h2 := consume_trailing_comment_length tok.row rest
          simp only [List.length_cons]
          omega

theorem install_step_decreases :
    ∀ (f : Nat) (tok : Token) (rest : List Token) (bs : List Breaker)
      (kids : List TreeNode) (rem : List Token),
      Breaker.paren ∈ bs → should_break tok bs = false →
      install_step f (tok :: rest) bs = .ok (kids, rem) →
      rem.length < (tok :: rest).length := by
  intro f tok rest bs kids rem hmem hsb h
  have hrpn := not_rparen_of_should_break_false hmem hsb
  match f with
  | 0 => simp [install_step, inst_run] at h
  | f + 1 =>
    simp only [install_step, inst_run] at h
    split at h
    next w hw =>
      split at h
      next hdes =>
        split at h
        next subKids rem0 heq =>
          injection h with h'
          injection h' with h1 h2
          subst h1; subst h2
          have hlen := inst_run_length heq
          have hctc := consume_trailing_comment_length tok.row rest
          simp only [List.length_cons]
          omega
        next => simp at h
      next hdes =>
        split at h
        next pp hlk =>
          split at h
          next t1 r1 hpos =>
            injection h with h'
            injection h' with h1 h2
            subst h1; subst h2
            have hlen := parse_positionals_length hpos
            have hctc := consume_trailing_comment_length tok.row rest
            simp only [List.length_cons]
            omega
          next => simp at h
        next hlk =>
          split at h
          next t1 r1 hpos =>
            injection h with h'
            injection h' with h1 h2
            subst h1; subst h2
            refine parse_positionals_consumes ?_ ?_ hrpn hpos
            · rfl
            · simp only [installPositionalBS]
              rw [should_break_append, hsb]
              simp only [Bool.false_or, should_break, List.any_cons, List.any_nil,
                Bool.or_false, breakerMatches, hw, optContains]
              rw [contains_append_eq, lookup_none_not_contains hlk]
              simpa using hdes
          next => simp at h
    next hw =>
      split at h
      next t1 r1 hpos =>
        injection h with h'
        injection h' with h1 h2
        subst h1; subst h2
        refine parse_positionals_consumes ?_ ?_ hrpn hpos
        · rfl
        · simp only [installPositionalBS]
          rw [should_break_append, hsb]
          simp only [Bool.false_or, should_break, List.any_cons, List.any_nil,
            Bool.or_false, breakerMatches, hw, optContains]
      next => simp at h

theorem inst_run_no_assert :
    ∀ (f : Nat) (call : InstCall) (toks : List Token),
      Breaker.paren ∈ instCallBS call → inst_run f call toks ≠ .error .assertError := by
  intro f
  induction f with
  | zero =>
    intro call toks hmem h
    simp only [inst_run] at h
    injection h with h'
    exact PErr.noConfusion h'
  | succ f ih =>
    intro call toks hmem h
    match call with
    | .targets bs =>
      simp only [inst_run] at h
      split at h
      next => simp at h
      next e heq =>
        injection h with h'
        subst h'
        exact ih (.loop bs) _ hmem heq
    | .loop bs =>
      match toks with
      | [] => simp [inst_run] at h
      | tok :: rest =>
        simp only [inst_run] at h
        split at h
        next => simp at h
        next hsb =>
          split at h
          next => exact ih (.loop bs) _ hmem (consKid_error h)
          next =>
            split at h
            next => exact ih (.loop bs) _ hmem (consKid_error h)
            next =>
              split at h
              next e heq =>
                injection h with h'
                subst h'
                exact ih (.step bs) _ hmem heq
              next subKids rem0 heq =>
                split at h
                next hlt =>
                  split at h
                  next => simp at h
                  next e heq2 =>
                    injection h with h'
                    subst h'
                    exact ih (.loop bs) _ hmem heq2
                next hnlt =>
                  have hsb' : should_break tok bs = false := by simpa using hsb
                  exact hnlt (install_step_decreases f tok rest bs subKids rem0 hmem hsb' heq)
    | .step bs =>
      match toks with
      | [] =>
        simp only [inst_run] at h
        injection h with h'
        exact PErr.noConfusion h'
      | tok :: rest =>
        simp only [inst_run] at h
        split at h
        next w hw =>
          split at h
          next =>
            split at h
            next => simp at h
            next e heq =>
              injection h with h'
              subst h'
              refine ih (.targets (installSubtreeBS bs)) _ ?_ heq
              simp only [instCallBS, installSubtreeBS]
              exact List.mem_append_left _ hmem
          next =>
            split at h
            next pp hlk =>
              split at h
              next => simp at h
              next e heq =>
                injection h with h'
                subst h'
                exact PErr.noConfusion (parse_positionals_error heq)
            next =>
              split at h
              next => simp at h
              next e heq =>
                injection h with h'
                subst h'
                exact PErr.noConfusion (parse_positionals_error heq)
        next hw =>
          split at h
          next => simp at h
          next e heq =>
            injection h with h'
            subst h'
            exact PErr.noConfusion (parse_positionals_error heq)

/-! ## Sortable-flag monotonicity -/

theorem aeCommentSortable_monotone (stPast s : Bool) (tok : Token)
    (h : aeCommentSortable stPast s tok = true) : s = true := by
  unfold aeCommentSortable at h
  split at h
  · split at h
    · exact Bool.noConfusion h
    · exact h
  · exact h

theorem aeCommentSortable_deadElim (stPast s : Bool) (tok : Token) :
    aeCommentSortable stPast s tok = aeCommentSortableDeadElim stPast s tok := by
  cases stPast
  · rfl
  · by_cases hc : (get_tag tok == some "unsort" || get_tag tok == some "unsortable") = true
    · simp [aeCommentSortable, aeCommentSortableDeadElim, hc]
    · replace hc : (get_tag tok == some "unsort" || get_tag tok == some "unsortable") =
          false := by simpa using hc
      simp [aeCommentSortable, aeCommentSortableDeadElim, hc]

theorem aeStep_sortable_monotone (st : AESt) (toks : List Token) (bs : List Breaker)
    (h : (aeStep st toks bs).1.sortable = true) : st.sortable = true := by
  match toks with
  | [] => exact h
  | tok :: rest =>
    by_cases hrp : (tok.type == TokenType.RIGHT_PAREN) = true
    · simpa [aeStep, hrp] using h
    · replace hrp : (tok.type == TokenType.RIGHT_PAREN) = false := by simpa using hrp
      by_cases hw : isWhitespaceTok tok = true
      · simp only [aeStep, hrp, hw] at h
        simp at h
        rw [aeAppendAtDepth_sortable] at h
        exact h
      · replace hw : isWhitespaceTok tok = false := by simpa using hw
        by_cases hc : isCommentTok tok = true
        · simp only [aeStep, hrp, hw, hc] at h
          simp at h
          rw [aeAppendAtDepth_sortable] at h
          exact aeCommentSortable_monotone _ _ _ h
        · replace hc : isCommentTok tok = false := by simpa using hc
          cases hph : st.phase with
          | name => simpa [aeStep, hrp, hw, hc, hph] using h
          | flags =>
            by_cases hfl : optContains (get_normalized_kwarg tok)
                ["WIN32", "MACOSX_BUNDLE", "EXCLUDE_FROM_ALL"] = true
            · simpa [aeStep, hrp, hw, hc, hph, hfl] using h
            · replace hfl : optContains (get_normalized_kwarg tok)
                  ["WIN32", "MACOSX_BUNDLE", "EXCLUDE_FROM_ALL"] = false := by
                simpa using hfl
              simpa [aeStep, hrp, hw, hc, hph, hfl] using h
          | sources =>
            by_cases hocw : only_comments_and_whitespace_remain
                (consume_trailing_comment tok.row rest).2 bs = true
            · simpa [aeStep, hrp, hw, hc, hph, hocw] using h
            · replace hocw : only_comments_and_whitespace_remain
                  (consume_trailing_comment tok.row rest).2 bs = false := by
                simpa using hocw
              simpa [aeStep, hrp, hw, hc, hph, hocw] using h

theorem allNodesList_append (a b : List TreeNode) :
    allNodesList (a ++ b) = allNodesList a ++ allNodesList b := by
  induction a with
  | nil => simp [allNodesList]
  | cons x xs ih => simp [allNodesList, ih]

theorem sortablesList_append (a b : List TreeNode) :
    sortablesList (a ++ b) = sortablesList a ++ sortablesList b := by
  simp [sortablesList, allNodesList_append]

theorem sortablesList_singleton (x : TreeNode) :
    sortablesList [x] = nodeSortables x := by
  simp [sortablesList, nodeSortables, allNodesList]

theorem node_sortables (ty : NodeType) (so : Bool) (kids : List TreeNode) :
    nodeSortables (.node ty so kids) = so :: sortablesList kids := rfl

theorem sortables_append_all {a b : List TreeNode}
    (ha : ∀ x ∈ sortablesList a, x = false) (hb : ∀ x ∈ sortablesList b, x = false) :
    ∀ x ∈ sortablesList (a ++ b), x = false := by
  intro x hx
  rw [sortablesList_append] at hx
  rcases List.mem_append.mp hx with h | h
  · exact ha x h
  · exact hb x h

theorem sortablesList_map_leaf (l : List Token) :
    sortablesList (l.map .leaf) = [] := by
  induction l with
  | nil => rfl
  | cons x xs ih =>
    simp only [List.map, sortablesList, allNodesList, allNodes, List.filterMap] at *
    exact ih

theorem ctc_sortables (row : Nat) (ts : List Token) :
    ∀ b ∈ sortablesList (consume_trailing_comment row ts).1, b = false := by
  cases ts with
  | nil => intro b hb; simp [consume_trailing_comment, sortablesList, allNodesList] at hb
  | cons c rest =>
    by_cases h : (isCommentTok c && c.row == row) = true
    · intro b hb
      simp [consume_trailing_comment, h, sortablesList, allNodesList, allNodes] at hb
      exact hb
    · intro b hb
      simp [consume_trailing_comment, h, sortablesList, allNodesList] at hb

theorem argNode_sortables (nt : NodeType) (tok : Token) (row : Nat) (ts : List Token) :
    ∀ b ∈ sortablesList
      [TreeNode.node nt false (TreeNode.leaf tok :: (consume_trailing_comment row ts).1)],
      b = false := by
  intro b hb
  rw [sortablesList_singleton, node_sortables] at hb
  rcases List.mem_cons.mp hb with h | h
  · exact h
  · have : sortablesList (TreeNode.leaf tok :: (consume_trailing_comment row ts).1) =
        sortablesList (consume_trailing_comment row ts).1 := by
      simp [sortablesList, allNodesList, allNodes, List.filterMap]
    rw [this] at h
    exact ctc_sortables row ts b h

theorem aeCommentSortable_false (stPast : Bool) (tok : Token) :
    aeCommentSortable stPast false tok = false := by
  cases hres : aeCommentSortable stPast false tok
  · rfl
  · exact absurd (aeCommentSortable_monotone _ _ _ hres) (by decide)

theorem aeAppendAtDepth_allFalse {st : AESt} {x : TreeNode} (hst : aeAllFalse st)
    (hx : ∀ b ∈ nodeSortables x, b = false) : aeAllFalse (aeAppendAtDepth st x) := by
  obtain ⟨h1, h2, h3, h4, h5, h6⟩ := hst
  have hx' : ∀ b ∈ sortablesList [x], b = false := by
    intro b hb
    rw [sortablesList_singleton] at hb
    exact hx b hb
  unfold aeAppendAtDepth
  split
  · exact ⟨h1, h2, sortables_append_all h3 hx', h4, h5, h6⟩
  · exact ⟨h1, h2, h3, sortables_append_all h4 hx', h5, h6⟩
  · split
    · exact ⟨h1, h2, h3, h4, h5, sortables_append_all h6 hx'⟩
    · exact ⟨h1, h2, h3, h4, sortables_append_all h5 hx', h6⟩

theorem aeStep_allFalse {st : AESt} {toks : List Token} {bs : List Breaker}
    (hst : aeAllFalse st) : aeAllFalse (aeStep st toks bs).1 := by
  match toks with
  | [] => exact hst
  | tok :: rest =>
    obtain ⟨h1, h2, h3, h4, h5, h6⟩ := hst
    by_cases hrp : (tok.type == TokenType.RIGHT_PAREN) = true
    · simp only [aeStep, hrp, if_true]
      exact ⟨h1, h2, h3, h4, h5, h6⟩
    · replace hrp : (tok.type == TokenType.RIGHT_PAREN) = false := by simpa using hrp
      by_cases hw : isWhitespaceTok tok = true
      · simp only [aeStep, hrp, hw, Bool.false_eq_true, if_false, if_true]
        exact aeAppendAtDepth_allFalse ⟨h1, h2, h3, h4, h5, h6⟩
          (by intro b hb; simp [nodeSortables, allNodes] at hb)
      · replace hw : isWhitespaceTok tok = false := by simpa using hw
        by_cases hc : isCommentTok tok = true
        · simp only [aeStep, hrp, hw, hc, Bool.false_eq_true, if_false, if_true]
          refine aeAppendAtDepth_allFalse ⟨?_, h2, h3, h4, h5, h6⟩ ?_
          · rw [h1]
            exact aeCommentSortable_false _ _
          · intro b hb
            rw [node_sortables] at hb
            rcases List.mem_cons.mp hb with h | h
            · exact h
            · simp [sortablesList, allNodesList, allNodes] at h
        · replace hc : isCommentTok tok = false := by simpa using hc
          cases hph : st.phase with
          | name =>
            simp only [aeStep, hrp, hw, hc, hph, Bool.false_eq_true, if_false]
            exact ⟨h1, h2, h3, argNode_sortables _ tok tok.row rest, h5, h6⟩
          | flags =>
            by_cases hfl : optContains (get_normalized_kwarg tok)
                ["WIN32", "MACOSX_BUNDLE", "EXCLUDE_FROM_ALL"] = true
            · simp only [aeStep, hrp, hw, hc, hph, hfl, Bool.false_eq_true, if_false,
                if_true]
              exact ⟨h1, h2, h3,
                sortables_append_all h4 (by
                  simpa using argNode_sortables NodeType.FLAG tok tok.row rest),
                h5, h6⟩
            · replace hfl : optContains (get_normalized_kwarg tok)
                  ["WIN32", "MACOSX_BUNDLE", "EXCLUDE_FROM_ALL"] = false := by
                simpa using hfl
              simp only [aeStep, hrp, hw, hc, hph, hfl, Bool.false_eq_true, if_false]
              exact ⟨h1, h1, h3, h4, by intro b hb; simp [sortablesList, allNodesList] at hb,
                h6⟩
          | sources =>
            by_cases hocw : only_comments_and_whitespace_remain
                (consume_trailing_comment tok.row rest).2 bs = true
            · simp only [aeStep, hrp, hw, hc, hph, hocw, Bool.false_eq_true, if_false,
                if_true]
              exact ⟨h1, h2, h3, h4,
                sortables_append_all h5 (by
                  simpa using argNode_sortables NodeType.ARGUMENT tok tok.row rest), h6⟩
            · replace hocw : only_comments_and_whitespace_remain
                  (consume_trailing_comment tok.row rest).2 bs = false := by
                simpa using hocw
              simp only [aeStep, hrp, hw, hc, hph, hocw, Bool.false_eq_true, if_false]
              exact ⟨h1, h2, h3, h4,
                sortables_append_all h5 (by
                  simpa using argNode_sortables NodeType.ARGUMENT tok tok.row rest), h6⟩

theorem aeLoop_allFalse :
    ∀ (f : Nat) (st : AESt) (toks : List Token) (bs : List Breaker) (stF : AESt)
      (rem : List Token), aeAllFalse st → aeLoop f st toks bs = .ok (stF, rem) →
      aeAllFalse stF := by
  intro f
  induction f with
  | zero => intro st toks bs stF rem hst h; simp [aeLoop] at h
  | succ f ih =>
    intro st toks bs stF rem hst h
    simp only [aeLoop] at h
    split at h
    · injection h with h'
      injection h' with h1 h2
      subst h1
      exact aeStep_allFalse hst
    · exact ih _ _ _ _ _ (aeStep_allFalse hst) h

theorem aeAssemble_sortables {st : AESt} (hst : aeAllFalse st) :
    ∀ b ∈ nodeSortables (aeAssemble st), b = false := by
  obtain ⟨h1, h2, h3, h4, h5, h6⟩ := hst
  intro b hb
  unfold aeAssemble at hb
  rw [node_sortables, sortablesList_append, sortablesList_append,
    sortablesList_append] at hb
  rcases List.mem_cons.mp hb with h | h
  · exact h
  rcases List.mem_append.mp h with h | h
  rotate_left
  · exact h6 b h
  rcases List.mem_append.mp h with h | h
  rotate_left
  · -- the sources group, present only in the sources phase
    cases hph : st.phase <;> rw [hph] at h
    · simp [sortablesList, allNodesList] at h
    · simp [sortablesList, allNodesList] at h
    · rw [sortablesList_singleton, node_sortables] at h
      rcases List.mem_cons.mp h with h | h
      · rw [h]; exact h2
      · exact h5 b h
  rcases List.mem_append.mp h with h | h
  · exact h3 b h
  · -- the name group, present past the name phase
    cases hph : st.phase <;> rw [hph] at h
    · simp [sortablesList, allNodesList] at h
    · rw [sortablesList_singleton, node_sortables] at h
      rcases List.mem_cons.mp h with h | h
      · exact h
      · exact h4 b h
    · rw [sortablesList_singleton, node_sortables] at h
      rcases List.mem_cons.mp h with h | h
      · exact h
      · exact h4 b h

theorem parse_add_executable_standard_allFalse {f : Nat} {toks rem : List Token}
    {bs : List Breaker} {t : TreeNode}
    (h : parse_add_executable_standard f toks bs false = .ok (t, rem)) :
    ∀ b ∈ nodeSortables t, b = false := by
  simp only [parse_add_executable_standard] at h
  split at h
  next stF rem0 heq =>
    injection h with h'
    injection h' with h1 h2
    subst h1; subst h2
    have hst0 : aeAllFalse
        ⟨.name, false, false, (toks.takeWhile isWhitespaceTok).map .leaf, [], false,
         [], []⟩ := by
      refine ⟨rfl, rfl, ?_, ?_, ?_, ?_⟩
      · intro b hb
        rw [show AESt.lead ⟨.name, false, false,
            (toks.takeWhile isWhitespaceTok).map .leaf, [], false, [], []⟩ =
            (toks.takeWhile isWhitespaceTok).map .leaf from rfl,
          sortablesList_map_leaf] at hb
        exact absurd hb (List.not_mem_nil b)
      · intro b hb; simp [sortablesList, allNodesList] at hb
      · intro b hb; simp [sortablesList, allNodesList] at hb
      · intro b hb; simp [sortablesList, allNodesList] at hb
    exact aeAssemble_sortables (aeLoop_allFalse f _ _ bs _ _ hst0 heq)
  next => simp at h

/-! ## Breakstack characterizations -/

theorem installSubtreeBS_break (bs : List Breaker) (tok : Token) :
    should_break tok (installSubtreeBS bs) =
      (should_break tok bs ||
       optContains (get_normalized_kwarg tok) (designatedKwargs ++ ["INCLUDES"])) := by
  simp only [installSubtreeBS]
  rw [should_break_append]
  simp [should_break, breakerMatches]

theorem installKwargBS_break (bs : List Breaker) (tok : Token) :
    should_break tok (installKwargBS bs) =
      (should_break tok bs ||
       optContains (get_normalized_kwarg tok)
         (installKwargs.map Prod.fst ++ designatedKwargs ++ installFlags)) := by
  simp only [installKwargBS]
  rw [should_break_append]
  simp [should_break, breakerMatches]

theorem installPositionalBS_break (bs : List Breaker) (tok : Token) :
    should_break tok (installPositionalBS bs) =
      (should_break tok bs ||
       optContains (get_normalized_kwarg tok)
         (installKwargs.map Prod.fst ++ designatedKwargs)) := by
  simp only [installPositionalBS]
  rw [should_break_append]
  simp [should_break, breakerMatches]

theorem optContains_word_row (w : String) (r : Nat) (names : List String) :
    optContains (get_normalized_kwarg ⟨.WORD, w, r⟩) names =
      optContains (get_normalized_kwarg ⟨.WORD, w, 0⟩) names := rfl

theorem inst_targets_singleton {f : Nat} {toks rem : List Token} {bs : List Breaker}
    {kids : List TreeNode} (h : inst_run f (.targets bs) toks = .ok (kids, rem)) :
    ∃ x, kids = [x] ∧ parse_install_targets f toks bs = .ok (x, rem) := by
  have h0 := h
  match f with
  | 0 => simp [inst_run] at h
  | f + 1 =>
    simp only [inst_run] at h
    split at h
    next kids1 rem1 heq =>
      injection h with h'
      injection h' with h1 h2
      refine ⟨_, h1.symm, ?_⟩
      unfold parse_install_targets
      rw [h0, ← h1]
    next => simp at h

/-! ## Claims -/

/-- C1: for `install(TARGETS foo bar ARCHIVE DESTINATION lib LIBRARY
DESTINATION lib64)`, `parse_install_targets` returns a single TARGETS
tree containing one ARCHIVE and one LIBRARY sub-group, the ARCHIVE
sub-group holding a DESTINATION keyword group with value token `lib`
and the LIBRARY sub-group its own DESTINATION keyword group with value
token `lib64`; the two DESTINATION groups are separate nodes (the whole
tree has exactly two of them, one under each sub-group). -/
theorem C1_two_destination_groups :
    ∃ t rem, parse_install_targets 40 c1Tokens [Breaker.paren] = .ok (t, rem) ∧
      (descKwargGroups "TARGETS" t).map argWords = [["foo", "bar"]] ∧
      (descKwargGroups "ARCHIVE" t).length = 1 ∧
      (descKwargGroups "LIBRARY" t).length = 1 ∧
      ((descKwargGroups "ARCHIVE" t).map fun g =>
        (descKwargGroups "DESTINATION" g).map argWords) = [[["lib"]]] ∧
      ((descKwargGroups "LIBRARY" t).map fun g =>
        (descKwargGroups "DESTINATION" g).map argWords) = [[["lib64"]]] ∧
      (descKwargGroups "DESTINATION" t).length = 2 ∧
      rem = [rparenTok] :=
  ⟨_, _, rfl, rfl, rfl, rfl, rfl, rfl, rfl, rfl⟩

/-- C3 (code_bug evidence): on `install(BOGUS)` the unrecognized
discriminator takes the branch at install.py lines 316-320, whose
warning calls the non-callable `location` attribute of the first
token, so `parse_install` raises (TypeError) instead of returning the
permissive parse the claim describes.  The two missing-discriminator
paths behave as claimed: with no semantic token at all (and a
non-empty stream), both dispatchers log via `get_location()` and
return the permissive parse. -/
theorem C3_unrecognized_install_form_raises (fuel : Nat) (breakstack : List Breaker) :
    parse_install fuel [wordTok "BOGUS", rparenTok] breakstack = .error .typeError ∧
    parse_install fuel [wsTok] breakstack =
      parse_standard fuel [wsTok] .zeroOrMore [] [] breakstack ∧
    parse_add_executable fuel [wsTok] breakstack =
      parse_standard fuel [wsTok] .zeroOrMore [] [] breakstack :=
  ⟨rfl, rfl, rfl⟩

/-- C7 counterexample: for `add_executable(foo ALIAS bar)` the
resulting tree does contain a FLAG node (holding the token `ALIAS`),
refuting the claim's "no flag nodes". -/
theorem C7_counterexample :
    ∃ t rem, parse_add_executable 40 c7Tokens [Breaker.paren] = .ok (t, rem) ∧
      countFlagNodes t = 1 ∧ flagWords t = ["ALIAS"] :=
  ⟨_, _, rfl, rfl, rfl⟩

/-- C7 (amended): the discriminator `ALIAS` selects the alias form,
and the result is a single positional group holding exactly the three
semantic tokens `foo`, `ALIAS`, `bar` in order — `foo` and `bar` as
ARGUMENT nodes and `ALIAS` as a FLAG node, since `ALIAS` is the
declared flag of the alias form — with no keyword-group nodes. -/
theorem C7_alias_form :
    ∃ t rem, parse_add_executable 40 c7Tokens [Breaker.paren] = .ok (t, rem) ∧
      parse_add_executable 40 c7Tokens [Breaker.paren] =
        parse_add_executable_alias 40 c7Tokens [Breaker.paren] ∧
      (pargGroupsOf t).length = 1 ∧
      (pargGroupsOf t).map semanticWords = [["foo", "ALIAS", "bar"]] ∧
      argWords t = ["foo", "bar"] ∧
      flagWords t = ["ALIAS"] ∧
      countKwargGroups t = 0 ∧
      rem = [rparenTok] :=
  ⟨_, _, rfl, rfl, rfl, rfl, rfl, rfl, rfl, rfl⟩

/-- C8: when the `add_executable` discriminator matches no form-table
entry, the default form is parsed with sortable inference disabled
exactly when the discriminator's spelling contains the
variable-dereference marker; and the default form invoked with
sortable disabled builds a tree in which every node — in particular
the sources positional group — carries sortable = false (comment tags
can never re-enable it). -/
theorem C8_deref_disables_sortable :
    (∀ (f : Nat) (toks : List Token) (bs : List Breaker) (second : Token),
        (iter_semantic_tokens toks)[1]? = some second →
        (toUpperStr second.spelling == "ALIAS") = false →
        (toUpperStr second.spelling == "IMPORTED") = false →
        parse_add_executable f toks bs =
          parse_add_executable_standard f toks bs (!containsDeref second.spelling) ∧
        (containsDeref second.spelling = true →
          parse_add_executable f toks bs =
            parse_add_executable_standard f toks bs false) ∧
        (containsDeref second.spelling = false →
          parse_add_executable f toks bs =
            parse_add_executable_standard f toks bs true)) ∧
    (∀ (f : Nat) (toks rem : List Token) (bs : List Breaker) (t : TreeNode),
        parse_add_executable_standard f toks bs false = .ok (t, rem) →
        ∀ b ∈ nodeSortables t, b = false) := by
  constructor
  · intro f toks bs second hsec ha hi
    refine ⟨?_, fun hd => ?_, fun hd => ?_⟩
    · simp [parse_add_executable, hsec, ha, hi]
    · simp [parse_add_executable, hsec, ha, hi, hd]
    · simp [parse_add_executable, hsec, ha, hi, hd]
  · intro f toks rem bs t h
    exact parse_add_executable_standard_allFalse h

/-- Witness for C8 at `add_executable(foo <deref>)`: the dispatcher
calls the default form with sortable disabled, and every group of the
resulting tree (the sources group included) has sortable = false. -/
theorem C8_deref_disables_sortable_witness :
    (parse_add_executable 40 c8Tokens [Breaker.paren] =
      parse_add_executable_standard 40 c8Tokens [Breaker.paren] false) ∧
    (∀ b ∈ nodeSortables (TreeNode.node .ARGGROUP false
        [TreeNode.node .PARGGROUP false
          [TreeNode.node .ARGUMENT false [TreeNode.leaf (wordTok "foo")],
           TreeNode.leaf wsTok],
         TreeNode.node .PARGGROUP false
          [TreeNode.node .ARGUMENT false [TreeNode.leaf derefTok]]]), b = false) :=
  ⟨(C8_deref_disables_sortable.1 40 c8Tokens [Breaker.paren] derefTok rfl rfl rfl).2.1
      rfl,
   C8_deref_disables_sortable.2 40 c8Tokens [rparenTok] [Breaker.paren] _ rfl⟩

/-- C9: in `parse_add_executable_standard` the local `sortable`
variable is monotone non-increasing: the comment-tag handling can set
it to false but can never set it back to true (the branch at
add_executable.py line 98 assigning `sortable = True` tests the
identical condition as the branch before it, so removing it does not
change the function, and a true result always means the flag was
already true); consequently no loop iteration ever increases the
flag. -/
theorem C9_sortable_never_reenabled :
    (∀ (stPast s : Bool) (tok : Token),
        aeCommentSortable stPast s tok = true → s = true) ∧
    (∀ (stPast s : Bool) (tok : Token),
        aeCommentSortable stPast s tok = aeCommentSortableDeadElim stPast s tok) ∧
    (∀ (st : AESt) (toks : List Token) (bs : List Breaker),
        (aeStep st toks bs).1.sortable = true → st.sortable = true) :=
  ⟨aeCommentSortable_monotone, aeCommentSortable_deadElim, aeStep_sortable_monotone⟩

/-- Witness for C9: a whitespace iteration leaves the (true) flag
unchanged, so the monotonicity instance applies. -/
theorem C9_sortable_never_reenabled_witness : c2State.sortable = true :=
  C9_sortable_never_reenabled.2.2 c2State [wsTok] [Breaker.paren] rfl

/-- C5: `parse_install_targets` derives three breakstacks from the
incoming one.  The subtree breakstack adds a breaker matching exactly
the nine designated sub-group names plus INCLUDES — in particular the
shared keywords DESTINATION, PERMISSIONS, CONFIGURATIONS, COMPONENT
and NAMELINK_COMPONENT do not break it; the kwarg breakstack adds a
breaker matching all outer keywords, designated sub-group names and
flags; the positional breakstack adds one matching the outer keywords
and sub-group names but no flags.  The classification at the top of
the loop goes, in priority order: designated sub-group name (genuine
recursion into `parse_install_targets` itself, with the subtree
breakstack), then outer keyword (its payload parsed with the kwarg
breakstack), else bare positional (parsed with the positional
breakstack). -/
theorem C5_three_breakstacks_and_priority :
    (∀ (bs : List Breaker) (tok : Token),
        should_break tok (installSubtreeBS bs) =
          (should_break tok bs ||
           optContains (get_normalized_kwarg tok) (designatedKwargs ++ ["INCLUDES"]))) ∧
    (∀ w ∈ ["DESTINATION", "PERMISSIONS", "CONFIGURATIONS", "COMPONENT",
        "NAMELINK_COMPONENT"], ∀ (bs : List Breaker) (r : Nat),
        should_break ⟨.WORD, w, r⟩ (installSubtreeBS bs) =
          should_break ⟨.WORD, w, r⟩ bs) ∧
    (∀ w ∈ installKwargs.map Prod.fst ++ designatedKwargs ++ installFlags,
        ∀ (bs : List Breaker) (r : Nat),
        should_break ⟨.WORD, w, r⟩ (installKwargBS bs) = true) ∧
    (∀ w ∈ installKwargs.map Prod.fst ++ designatedKwargs,
        ∀ (bs : List Breaker) (r : Nat),
        should_break ⟨.WORD, w, r⟩ (installPositionalBS bs) = true) ∧
    (∀ w ∈ installFlags, ∀ (bs : List Breaker) (r : Nat),
        should_break ⟨.WORD, w, r⟩ (installPositionalBS bs) =
          should_break ⟨.WORD, w, r⟩ bs) ∧
    (∀ (f : Nat) (tok : Token) (rest : List Token) (bs : List Breaker) (w : String),
        get_normalized_kwarg tok = some w → designatedKwargs.contains w = true →
        install_step (f + 1) (tok :: rest) bs =
          (match parse_install_targets f (consume_trailing_comment tok.row rest).2
              (installSubtreeBS bs) with
           | .ok (sub, rem) => .ok ([TreeNode.node .KWARGGROUP false
               [TreeNode.node .KEYWORD false
                 (TreeNode.leaf tok :: (consume_trailing_comment tok.row rest).1), sub]],
               rem)
           | .error e => .error e)) ∧
    (∀ (f : Nat) (tok : Token) (rest : List Token) (bs : List Breaker) (w : String)
        (pp : PositionalParser),
        get_normalized_kwarg tok = some w → designatedKwargs.contains w = false →
        installKwargs.lookup w = some pp →
        install_step (f + 1) (tok :: rest) bs =
          (match parse_positionals f (consume_trailing_comment tok.row rest).2 pp.npargs
              pp.flags (installKwargBS bs) false with
           | .ok (sub, rem) => .ok ([TreeNode.node .KWARGGROUP false
               [TreeNode.node .KEYWORD false
                 (TreeNode.leaf tok :: (consume_trailing_comment tok.row rest).1), sub]],
               rem)
           | .error e => .error e)) ∧
    (∀ (f : Nat) (tok : Token) (rest : List Token) (bs : List Breaker) (w : String),
        get_normalized_kwarg tok = some w → designatedKwargs.contains w = false →
        installKwargs.lookup w = none →
        install_step (f + 1) (tok :: rest) bs =
          (match parse_positionals f (tok :: rest) .oneOrMore installFlags
              (installPositionalBS bs) false with
           | .ok (t, rem) => .ok ([t], rem)
           | .error e => .error e)) := by
  refine ⟨installSubtreeBS_break, ?_, ?_, ?_, ?_, ?_, ?_, ?_⟩
  · intro w hw bs r
    rw [installSubtreeBS_break]
    have hx : optContains (get_normalized_kwarg ⟨.WORD, w, r⟩)
        (designatedKwargs ++ ["INCLUDES"]) = false := by
      rw [optContains_word_row]
      fin_cases hw <;> decide
    rw [hx, Bool.or_false]
  · intro w hw bs r
    rw [installKwargBS_break]
    have hw' : w ∈ ["TARGETS", "EXPORT", "INCLUDES", "DESTINATION", "PERMISSIONS",
        "CONFIGURATIONS", "COMPONENT", "NAMELINK_COMPONENT", "ARCHIVE", "LIBRARY",
        "RUNTIME", "OBJECTS", "FRAMEWORK", "BUNDLE", "PRIVATE_HEADER", "PUBLIC_HEADER",
        "RESOURCE", "OPTIONAL", "EXCLUDE_FROM_ALL", "NAMELINK_ONLY", "NAMELINK_SKIP"] := by
      simpa [installKwargs, designatedKwargs, installFlags] using hw
    have hx : optContains (get_normalized_kwarg ⟨.WORD, w, r⟩)
        (installKwargs.map Prod.fst ++ designatedKwargs ++ installFlags) = true := by
      rw [optContains_word_row]
      fin_cases hw' <;> decide
    rw [hx, Bool.or_true]
  · intro w hw bs r
    rw [installPositionalBS_break]
    have hw' : w ∈ ["TARGETS", "EXPORT", "INCLUDES", "DESTINATION", "PERMISSIONS",
        "CONFIGURATIONS", "COMPONENT", "NAMELINK_COMPONENT", "ARCHIVE", "LIBRARY",
        "RUNTIME", "OBJECTS", "FRAMEWORK", "BUNDLE", "PRIVATE_HEADER", "PUBLIC_HEADER",
        "RESOURCE"] := by
      simpa [installKwargs, designatedKwargs] using hw
    have hx : optContains (get_normalized_kwarg ⟨.WORD, w, r⟩)
        (installKwargs.map Prod.fst ++ designatedKwargs) = true := by
      rw [optContains_word_row]
      fin_cases hw' <;> decide
    rw [hx, Bool.or_true]
  · intro w hw bs r
    rw [installPositionalBS_break]
    have hx : optContains (get_normalized_kwarg ⟨.WORD, w, r⟩)
        (installKwargs.map Prod.fst ++ designatedKwargs) = false := by
      rw [optContains_word_row]
      fin_cases hw <;> decide
    rw [hx, Bool.or_false]
  · intro f tok rest bs w hw hdes
    simp only [install_step, inst_run, hw, hdes, if_true]
    cases hres : inst_run f (.targets (installSubtreeBS bs))
        (consume_trailing_comment tok.row rest).2 with
    | error e => simp [hres, parse_install_targets]
    | ok p =>
      obtain ⟨kids, rem⟩ := p
      obtain ⟨x, hx, hpt⟩ := inst_targets_singleton hres
      subst hx
      simp [hres, hpt]
  · intro f tok rest bs w pp hw hdes hlk
    simp only [install_step, inst_run, hw, hdes, hlk, Bool.false_eq_true, if_false]
  · intro f tok rest bs w hw hdes hlk
    simp only [install_step, inst_run, hw, hdes, hlk, Bool.false_eq_true, if_false]

/-- Witness for C5: the shared keyword DESTINATION does not break the
subtree breakstack derived from the driver's stack. -/
theorem C5_three_breakstacks_and_priority_witness :
    should_break ⟨.WORD, "DESTINATION", 1⟩ (installSubtreeBS [Breaker.paren]) =
      should_break ⟨.WORD, "DESTINATION", 1⟩ [Breaker.paren] :=
  C5_three_breakstacks_and_priority.2.1 "DESTINATION" (by simp) [Breaker.paren] 1

/-- C6: when the discriminator matches no form-table entry, the
default form runs a three-state machine: the name state consumes
exactly the first semantic token as a one-element positional group;
the flags state consumes tokens from the fixed flag set and
transitions to the sources state on the first other token without
consuming it; the sources state consumes each remaining token into
the sources group (which carries the sortable metadata captured at
its creation).  For `add_executable(foo bar.c baz.c)` the result has
name group `[foo]`, no flag nodes, sources `[bar.c, baz.c]`, and the
sources group is sortable. -/
theorem C6_default_form_state_machine :
    (∀ (st : AESt) (tok : Token) (rest : List Token) (bs : List Breaker),
        st.phase = .name → (tok.type == TokenType.RIGHT_PAREN) = false →
        isWhitespaceTok tok = false → isCommentTok tok = false →
        (aeStep st (tok :: rest) bs).1.phase = .flags ∧
        (aeStep st (tok :: rest) bs).1.pargKids =
          [TreeNode.node .ARGUMENT false
            (TreeNode.leaf tok :: (consume_trailing_comment tok.row rest).1)] ∧
        (aeStep st (tok :: rest) bs).2.1 = (consume_trailing_comment tok.row rest).2) ∧
    (∀ (st : AESt) (tok : Token) (rest : List Token) (bs : List Breaker),
        st.phase = .flags → (tok.type == TokenType.RIGHT_PAREN) = false →
        isWhitespaceTok tok = false → isCommentTok tok = false →
        optContains (get_normalized_kwarg tok)
          ["WIN32", "MACOSX_BUNDLE", "EXCLUDE_FROM_ALL"] = true →
        (aeStep st (tok :: rest) bs).1.phase = .flags ∧
        (aeStep st (tok :: rest) bs).1.pargKids = st.pargKids ++
          [TreeNode.node .FLAG false
            (TreeNode.leaf tok :: (consume_trailing_comment tok.row rest).1)] ∧
        (aeStep st (tok :: rest) bs).2.1 = (consume_trailing_comment tok.row rest).2) ∧
    (∀ (st : AESt) (tok : Token) (rest : List Token) (bs : List Breaker),
        st.phase = .flags → (tok.type == TokenType.RIGHT_PAREN) = false →
        isWhitespaceTok tok = false → isCommentTok tok = false →
        optContains (get_normalized_kwarg tok)
          ["WIN32", "MACOSX_BUNDLE", "EXCLUDE_FROM_ALL"] = false →
        (aeStep st (tok :: rest) bs).1.phase = .sources ∧
        (aeStep st (tok :: rest) bs).1.srcSortable = st.sortable ∧
        (aeStep st (tok :: rest) bs).1.srcKids = [] ∧
        (aeStep st (tok :: rest) bs).2.1 = tok :: rest) ∧
    (∀ (st : AESt) (tok : Token) (rest : List Token) (bs : List Breaker),
        st.phase = .sources → (tok.type == TokenType.RIGHT_PAREN) = false →
        isWhitespaceTok tok = false → isCommentTok tok = false →
        (aeStep st (tok :: rest) bs).1.srcKids = st.srcKids ++
          [TreeNode.node .ARGUMENT false
            (TreeNode.leaf tok :: (consume_trailing_comment tok.row rest).1)] ∧
        (aeStep st (tok :: rest) bs).2.1 = (consume_trailing_comment tok.row rest).2) ∧
    (∃ t rem, parse_add_executable 40 c6Tokens [Breaker.paren] = .ok (t, rem) ∧
      (pargGroupsOf t).map argWords = [["foo"], ["bar.c", "baz.c"]] ∧
      (pargGroupsOf t).map groupSortable = [false, true] ∧
      countFlagNodes t = 0 ∧ rem = [rparenTok]) := by
  refine ⟨?_, ?_, ?_, ?_, ⟨_, _, rfl, rfl, rfl, rfl, rfl⟩⟩
  · intro st tok rest bs hph hrp hw hc
    refine ⟨?_, ?_, ?_⟩ <;> simp [aeStep, hph, hrp, hw, hc]
  · intro st tok rest bs hph hrp hw hc hfl
    refine ⟨?_, ?_, ?_⟩ <;> simp [aeStep, hph, hrp, hw, hc, hfl]
  · intro st tok rest bs hph hrp hw hc hfl
    refine ⟨?_, ?_, ?_, ?_⟩ <;> simp [aeStep, hph, hrp, hw, hc, hfl]
  · intro st tok rest bs hph hrp hw hc
    by_cases hocw : only_comments_and_whitespace_remain
        (consume_trailing_comment tok.row rest).2 bs = true
    · refine ⟨?_, ?_⟩ <;> simp [aeStep, hph, hrp, hw, hc, hocw]
    · replace hocw : only_comments_and_whitespace_remain
          (consume_trailing_comment tok.row rest).2 bs = false := by simpa using hocw
      refine ⟨?_, ?_⟩ <;> simp [aeStep, hph, hrp, hw, hc, hocw]

/-- Witness for C6: the name iteration on `add_executable(foo ...`
moves the machine to the flags state. -/
theorem C6_default_form_state_machine_witness :
    (aeStep ⟨.name, false, true, [], [], false, [], []⟩ [wordTok "foo"]
      [Breaker.paren]).1.phase = .flags :=
  (C6_default_form_state_machine.1 ⟨.name, false, true, [], [], false, [], []⟩
    (wordTok "foo") [] [Breaker.paren] rfl rfl rfl rfl).1

/-- C10: invoked with an empty token sequence, both dispatchers reach
their missing-discriminator warning, which subscripts `tokens[0]` and
therefore raises IndexError instead of returning a permissive-parse
tree. -/
theorem C10_empty_stream_index_error (fuel : Nat) (breakstack : List Breaker) :
    parse_add_executable fuel [] breakstack = .error .indexError ∧
    parse_install fuel [] breakstack = .error .indexError :=
  ⟨rfl, rfl⟩

/-- C4: every token a grammar function (`parse_install` or
`parse_add_executable`, including all their sub-parsers) removes from
the stream appears exactly once in the returned tree and in the
original order: the in-order token sequence reachable from the tree,
followed by the unconsumed remainder, is exactly the input, and hence
the concatenated spellings of the tree's tokens reproduce the consumed
prefix exactly.  For the default-form executable parser this holds for
the breakstacks the parse driver supplies (structural parenthesis
breakers only). -/
theorem C4_losslessness :
    (∀ (fuel : Nat) (toks : List Token) (bs : List Breaker) (t : TreeNode)
        (rem : List Token), parse_install fuel toks bs = .ok (t, rem) →
        treeTokens t ++ rem = toks ∧
        concatSpellings (treeTokens t ++ rem) = concatSpellings toks) ∧
    (∀ (fuel : Nat) (toks : List Token) (bs : List Breaker) (t : TreeNode)
        (rem : List Token), parenOnly bs →
        parse_add_executable fuel toks bs = .ok (t, rem) →
        treeTokens t ++ rem = toks ∧
        concatSpellings (treeTokens t ++ rem) = concatSpellings toks) := by
  constructor
  · intro fuel toks bs t rem h
    have hmain := parse_install_tokens h
    exact ⟨hmain, by rw [hmain]⟩
  · intro fuel toks bs t rem hbs h
    have hmain := parse_add_executable_tokens hbs h
    exact ⟨hmain, by rw [hmain]⟩

/-- Witness for C4 at `install(SCRIPT)` and `add_executable(foo bar.c
baz.c)` with the driver's parenthesis-only breakstack. -/
theorem C4_losslessness_witness :
    treeTokens (TreeNode.node .ARGGROUP false
        [TreeNode.node .KWARGGROUP false
          [TreeNode.node .KEYWORD false [TreeNode.leaf (wordTok "SCRIPT")],
           TreeNode.node .PARGGROUP false []]]) ++ [rparenTok] =
      [wordTok "SCRIPT", rparenTok] ∧
    treeTokens (TreeNode.node .ARGGROUP false
        [TreeNode.node .PARGGROUP false
          [TreeNode.node .ARGUMENT false [TreeNode.leaf (wordTok "foo")],
           TreeNode.leaf wsTok],
         TreeNode.node .PARGGROUP true
          [TreeNode.node .ARGUMENT false [TreeNode.leaf (wordTok "bar.c")],
           TreeNode.leaf wsTok,
           TreeNode.node .ARGUMENT false [TreeNode.leaf (wordTok "baz.c")]]]) ++
        [rparenTok] = c6Tokens :=
  ⟨(C4_losslessness.1 20 [wordTok "SCRIPT", rparenTok] [Breaker.paren] _ _ rfl).1,
   (C4_losslessness.2 20 c6Tokens [Breaker.paren] _ _
      (fun b hb => by simpa using hb) rfl).1⟩

/-- C2 (amended): every iteration of the main loop of
`parse_install_targets` that classifies a semantic token strictly
decreases the remaining token count — proved without appealing to the
assertion, for stacks containing the driver's parenthesis breaker —
and consequently the internal assertion of install.py line 151 never
fires (the loop never returns the assertion failure); whitespace and
comment iterations pop one token each.  In
`parse_add_executable_standard`, every non-stopping iteration either
strictly decreases the remaining token count or is the single
flags-to-sources transition, which consumes no token and advances the
state machine instead. -/
theorem C2_progress_amended :
    (∀ (f : Nat) (tok : Token) (rest : List Token) (bs : List Breaker)
        (kids : List TreeNode) (rem : List Token),
        Breaker.paren ∈ bs → should_break tok bs = false →
        install_step f (tok :: rest) bs = .ok (kids, rem) →
        rem.length < (tok :: rest).length) ∧
    (∀ (f : Nat) (toks : List Token) (bs : List Breaker), Breaker.paren ∈ bs →
        inst_run f (.loop bs) toks ≠ .error .assertError) ∧
    (∀ (st : AESt) (toks : List Token) (bs : List Breaker),
        (aeStep st toks bs).2.2 = false →
        (aeStep st toks bs).2.1.length < toks.length ∨
          (st.phase = .flags ∧ (aeStep st toks bs).1.phase = .sources ∧
           (aeStep st toks bs).2.1 = toks)) := by
  refine ⟨install_step_decreases,
    fun f toks bs hmem => inst_run_no_assert f (.loop bs) toks hmem, ?_⟩
  intro st toks bs h
  match toks with
  | [] => simp [aeStep] at h
  | tok :: rest =>
    by_cases hrp : (tok.type == TokenType.RIGHT_PAREN) = true
    · simp [aeStep, hrp] at h
    · replace hrp : (tok.type == TokenType.RIGHT_PAREN) = false := by simpa using hrp
      by_cases hw : isWhitespaceTok tok = true
      · left
        simp [aeStep, hrp, hw]
      · replace hw : isWhitespaceTok tok = false := by simpa using hw
        by_cases hc : isCommentTok tok = true
        · left
          simp [aeStep, hrp, hw, hc]
        · replace hc : isCommentTok tok = false := by simpa using hc
          cases hph : st.phase with
          | name =>
            left
            have hlen := consume_trailing_comment_length tok.row rest
            simp [aeStep, hrp, hw, hc, hph]
            omega
          | flags =>
            by_cases hfl : optContains (get_normalized_kwarg tok)
                ["WIN32", "MACOSX_BUNDLE", "EXCLUDE_FROM_ALL"] = true
            · left
              have hlen := consume_trailing_comment_length tok.row rest
              simp [aeStep, hrp, hw, hc, hph, hfl]
              omega
            · replace hfl : optContains (get_normalized_kwarg tok)
                  ["WIN32", "MACOSX_BUNDLE", "EXCLUDE_FROM_ALL"] = false := by
                simpa using hfl
              right
              simp [aeStep, hrp, hw, hc, hph, hfl]
          | sources =>
            left
            have hlen := consume_trailing_comment_length tok.row rest
            by_cases hocw : only_comments_and_whitespace_remain
                (consume_trailing_comment tok.row rest).2 bs = true
            · simp [aeStep, hrp, hw, hc, hph, hocw]
              omega
            · replace hocw : only_comments_and_whitespace_remain
                  (consume_trailing_comment tok.row rest).2 bs = false := by
                simpa using hocw
              simp [aeStep, hrp, hw, hc, hph, hocw]
              omega

/-- Witness for the amended C2: the classification step on
`install(foo)` (a bare positional `foo` followed by the closing
parenthesis) consumes the `foo` token. -/
theorem C2_progress_amended_witness :
    ([rparenTok] : List Token).length < ([wordTok "foo", rparenTok] : List Token).length :=
  C2_progress_amended.1 5 (wordTok "foo") [rparenTok] [Breaker.paren]
    [TreeNode.node .PARGGROUP false [TreeNode.node .ARGUMENT false
      [TreeNode.leaf (wordTok "foo")]]] [rparenTok]
    (by simp) rfl rfl

/-- C2 counterexample: the flags-state iteration of
`parse_add_executable_standard` whose next token is not one of the
declared flags (here `bar.c`, in the state reached after
`add_executable(foo `) does not stop the loop and leaves the
remaining token count unchanged, refuting the claim that every
grammar-loop iteration strictly decreases it. -/
theorem C2_counterexample :
    (aeStep c2State [wordTok "bar.c", rparenTok] [Breaker.paren]).2.2 = false ∧
    (aeStep c2State [wordTok "bar.c", rparenTok] [Breaker.paren]).2.1 =
      [wordTok "bar.c", rparenTok] ∧
    ¬ (aeStep c2State [wordTok "bar.c", rparenTok] [Breaker.paren]).2.1.length <
      ([wordTok "bar.c", rparenTok] : List Token).length :=
  ⟨rfl, rfl, by decide⟩

end CmakeFormat
